import Mathlib

set_option maxRecDepth 100000

/-!
# Verification of the crcengine CRC calculation library

This file gives a shallow embedding, in Lean 4, of the CRC calculation
engine implemented in `src/crcengine/calc.py`, and proves properties of
that embedding.

Conventions of the embedding:
* Python unbounded non-negative integers are `Nat`; quantities that can be
  negative in Python (`_msb_lshift = width - 8`, the `start_bit` /
  `length_bits` arguments of the windowed engine) are `Int`.
* Python byte strings are `List Nat` (each element a byte value).
* A Python statement that can raise (`ValueError` from a negative shift
  count, `IndexError` from an out-of-range list index, the explicit
  `raise ValueError` checks of the windowed engine) is modelled with
  `Option`: `none` is a raised exception.  Code that cannot raise keeps
  the plain result type.
* The `print` calls and the debug `assert` in `_CrcWindowed.calculate`
  are diagnostics with no effect on the returned value (Python removes
  the `assert` under `-O`); they are not modelled.
* The module-level table `_REV8BITS = [bit_reverse_byte(n) for n in range(256)]`
  is modelled as the function `REV8BITS`; every access in the source uses
  an index below 256, where the list entry equals `bit_reverse_byte` of
  the index.
* Python `for` loops over `range(n)` are `List.foldl` over `List.range n`;
  the two `while` loops of the table generators run exactly 8 iterations
  (`i = 1,2,...,128`, respectively `i = 128,64,...,1`) and are embedded
  as folds over `List.range 8` with `i` the corresponding power of two.
-/

namespace Crcengine

/-- `bit_reverse_byte` from calc.py: bit-bashing reversal of a byte.
`result = 0; for i in range(8): if byte & (1 << i): result |= 1 << (7 - i); return result & 0xFF` -/
def bit_reverse_byte (byte : Nat) : Nat :=
  ((List.range 8).foldl
    (fun result i => if byte &&& (1 <<< i) ≠ 0 then result ||| (1 <<< (7 - i)) else result)
    0) &&& 0xFF

/-- The module-level table `_REV8BITS = [bit_reverse_byte(_n) for _n in range(256)]`,
as a function.  All accesses in the source use indices `< 256`. -/
def REV8BITS (n : Nat) : Nat := bit_reverse_byte n

/-- The loop of `bit_reverse_n`:
`for _ in range(num_bytes): result <<= 8; result |= _REV8BITS[value & 0xFF]; value >>= 8`. -/
def bit_reverse_loop : Nat → Nat → Nat → Nat
  | 0, result, _ => result
  | k + 1, result, value =>
      bit_reverse_loop k ((result <<< 8) ||| REV8BITS (value &&& 0xFF)) (value >>> 8)

/-- `bit_reverse_n(value, num_bits)` from calc.py: mirror the bits in an integer.
The Python pre-shift `value <<= (8 - num_bits) & 7` is on a possibly negative
`8 - num_bits`; for `num_bits ≥ 0` Python's `(8 - num_bits) & 7` equals
`(8 - num_bits % 8) % 8`, used here. -/
def bit_reverse_n (value num_bits : Nat) : Nat :=
  let value := value <<< ((8 - num_bits % 8) % 8)
  let num_bytes := (num_bits + 7) >>> 3
  bit_reverse_loop num_bytes 0 value

/-- `get_bits_max_value(nbits)` from calc.py. -/
def get_bits_max_value (nbits : Nat) : Nat := (1 <<< nbits) - 1

/-- `_calc_end_mask(last_bit)` from calc.py: `~((1 << (7 - last_bit)) - 1) & 0xFF`.
`last_bit` comes from `divmod(_, 8)` so lies in `[0, 7]`; on that range the
Python complement-and-mask equals the exclusive-or with `0xFF` used here. -/
def calc_end_mask (last_bit : Int) : Nat :=
  0xFF ^^^ ((1 <<< (7 - last_bit).toNat) - 1)

/-- One iteration of the msb-first shift-register:
`if crc & ms_bit: crc = (crc << 1) ^ poly else: crc <<= 1`.
This line appears verbatim in `_CrcGeneric.calculate`, `_CrcWindowed.calculate`,
`create_msb_table_individual` and `create_msb_table`. -/
def shift_round (ms_bit poly crc : Nat) : Nat :=
  if crc &&& ms_bit ≠ 0 then (crc <<< 1) ^^^ poly else crc <<< 1

/-- `n` msb-first shift-register rounds with no intermediate masking, as in the
inner loop of `_CrcGeneric.calculate` (the mask is applied once per byte there). -/
def shift_rounds (ms_bit poly : Nat) : Nat → Nat → Nat
  | 0, crc => crc
  | n + 1, crc => shift_rounds ms_bit poly n (shift_round ms_bit poly crc)

/-- `n` msb-first shift-register rounds masking after every round, as in the
inner loop of `_CrcWindowed.calculate` (`crc &= self._crc_mask` inside the loop). -/
def shift_rounds_masked (ms_bit poly mask : Nat) : Nat → Nat → Nat
  | 0, crc => crc
  | n + 1, crc => shift_rounds_masked ms_bit poly mask n (shift_round ms_bit poly crc &&& mask)

/-- One iteration of the lsb-first shift-register of `create_lsb_table`:
`if crc & 1: crc = (crc >> 1) ^ poly else: crc >>= 1` (with the reflected poly). -/
def lsb_shift_round (poly crc : Nat) : Nat :=
  if crc &&& 1 ≠ 0 then (crc >>> 1) ^^^ poly else crc >>> 1

/-- Python `x >> n` where the shift count is an `Int`: raises `ValueError`
(modelled `none`) on a negative count. -/
def pyShiftRight (x : Nat) (n : Int) : Option Nat :=
  if n < 0 then none else some (x >>> n.toNat)

/-- Python list read `table[idx]` on a 256-entry table with a non-negative
index: `IndexError` (modelled `none`) when the index is out of range. -/
def pyTableGet (table : List Nat) (idx : Nat) : Option Nat :=
  if idx < table.length then some (table.getD idx 0) else none

/-! ## Lookup-table generation -/

/-- Inner fill loop of `create_msb_table`:
`for j in range(0, i): table[i + j] = table[j] ^ crc`. -/
def msb_table_fill (i crc : Nat) (table : List Nat) : List Nat :=
  (List.range i).foldl (fun t j => t.set (i + j) (t.getD j 0 ^^^ crc)) table

/-- `create_msb_table(poly, width)` from calc.py.  The `while i <= 128` loop
with `i` doubling from 1 performs exactly 8 iterations with `i = 2^k`,
`k = 0..7`; state is the pair `(table, crc)`. -/
def create_msb_table (poly width : Nat) : List Nat :=
  let ms_bit := 1 <<< (width - 1)
  let result_mask := (1 <<< width) - 1
  ((List.range 8).foldl
    (fun (state : List Nat × Nat) k =>
      let i := 1 <<< k
      let crc := shift_round ms_bit poly state.2 &&& result_mask
      (msb_table_fill i crc state.1, crc))
    (List.replicate 256 0, ms_bit)).1

/-- Inner fill loop of `create_lsb_table`:
`for j in range(0, 256, 2 * i): table[i + j] = crc ^ table[j]`. -/
def lsb_table_fill (i crc : Nat) (table : List Nat) : List Nat :=
  (List.range (256 / (2 * i))).foldl
    (fun t m => t.set (i + m * (2 * i)) (crc ^^^ t.getD (m * (2 * i)) 0)) table

/-- `create_lsb_table(poly, width)` from calc.py.  The `while i > 0` loop with
`i` halving from 0x80 performs exactly 8 iterations with `i = 0x80 >> k`,
`k = 0..7`. -/
def create_lsb_table (poly width : Nat) : List Nat :=
  let poly := bit_reverse_n poly width
  ((List.range 8).foldl
    (fun (state : List Nat × Nat) k =>
      let i := 0x80 >>> k
      let crc := lsb_shift_round poly state.2
      (lsb_table_fill i crc state.1, crc))
    (List.replicate 256 0, 1)).1

/-! ## Table-driven engines -/

/-- The class `_CrcLsbfTable` (fields set in `__init__`). -/
structure CrcLsbfTable where
  table : List Nat
  seed : Nat
  width : Nat
  xor_out : Nat
  result_mask : Nat
  reverse_result : Bool

/-- `_CrcLsbfTable.__init__`: `self._result_mask = (1 << width) - 1`. -/
def CrcLsbfTable.init (table : List Nat) (width seed : Nat) (xor_out : Nat)
    (reverse_result : Bool) : CrcLsbfTable :=
  { table, seed, width, xor_out, result_mask := (1 <<< width) - 1, reverse_result }

/-- Per-byte update of `_CrcLsbfTable.calculate`:
`crc = (crc >> 8) ^ self._table[(crc & 0xFF) ^ byte]; crc &= self._result_mask`.
The index `(crc & 0xFF) ^ byte` is below 256 for byte values, so the list
access cannot fail. -/
def lsbf_byte_step (table : List Nat) (result_mask crc byte : Nat) : Nat :=
  ((crc >>> 8) ^^^ table.getD ((crc &&& 0xFF) ^^^ byte) 0) &&& result_mask

/-- `_CrcLsbfTable.calculate(data)`. -/
def CrcLsbfTable.calculate (self : CrcLsbfTable) (data : List Nat) : Nat :=
  let crc := bit_reverse_n self.seed self.width
  let crc := data.foldl (fun crc byte => lsbf_byte_step self.table self.result_mask crc byte) crc
  let crc := if self.reverse_result then bit_reverse_n crc self.width else crc
  crc ^^^ self.xor_out

/-- The class `_CrcMsbfTable` (fields set in `__init__`).  `_msb_lshift =
width - 8` may be negative in Python, hence `Int`. -/
structure CrcMsbfTable where
  table : List Nat
  seed : Nat
  width : Nat
  xor_out : Nat
  result_mask : Nat
  msb_lshift : Int
  reverse_result : Bool

/-- `_CrcMsbfTable.__init__`. -/
def CrcMsbfTable.init (table : List Nat) (width seed : Nat) (xor_out : Nat)
    (reverse_result : Bool) : CrcMsbfTable :=
  { table, seed, width, xor_out, result_mask := (1 <<< width) - 1,
    msb_lshift := (width : Int) - 8, reverse_result }

/-- Per-byte update of `_CrcMsbfTable.calculate`:
`remainder = (remainder << 8) ^ self._table[(remainder >> self._msb_lshift) ^ value];
remainder &= self._result_mask`.  The right shift raises for `width < 8` and the
table access raises when the index reaches 256 (possible for a seed wider than
`width`); both are modelled by `none`. -/
def msbf_byte_step (table : List Nat) (result_mask : Nat) (msb_lshift : Int)
    (remainder value : Nat) : Option Nat := do
  let top ← pyShiftRight remainder msb_lshift
  let entry ← pyTableGet table (top ^^^ value)
  some (((remainder <<< 8) ^^^ entry) &&& result_mask)

/-- `_CrcMsbfTable.calculate(data)`. -/
def CrcMsbfTable.calculate (self : CrcMsbfTable) (data : List Nat) : Option Nat := do
  let remainder ← data.foldlM
    (fun remainder value => msbf_byte_step self.table self.result_mask self.msb_lshift remainder value)
    self.seed
  let remainder := if self.reverse_result then bit_reverse_n remainder self.width else remainder
  some (remainder ^^^ self.xor_out)

/-! ## Generic bit-by-bit engine -/

/-- The class `_CrcGeneric` (fields set in `__init__`). -/
structure CrcGeneric where
  poly : Nat
  width : Nat
  default_seed : Nat
  xor_out : Nat
  result_mask : Nat
  crc_lshift : Nat
  msb_lshift : Nat
  msbit_mask : Nat
  crc_mask : Nat
  ref_in : Bool
  ref_out : Bool

/-- `_CrcGeneric.__init__(poly, width, seed, ref_in, ref_out, xor_out)`. -/
def CrcGeneric.init (poly width seed : Nat) (ref_in ref_out : Bool) (xor_out : Nat) :
    CrcGeneric :=
  let crc_lshift := if width < 8 then 8 - width else 0
  let msb_lshift := if width < 8 then 0 else width - 8
  { poly, width, default_seed := seed, xor_out,
    result_mask := (1 <<< width) - 1,
    crc_lshift, msb_lshift,
    msbit_mask := 1 <<< (width + crc_lshift - 1),
    crc_mask := (1 <<< (width + crc_lshift)) - 1,
    ref_in, ref_out }

/-- Per-byte body of the loop in `_CrcGeneric.calculate`: optional input
reflection, xor into the top of the register, 8 unmasked rounds, then
`crc &= self._crc_mask`. -/
def generic_byte_step (ref_in : Bool) (msb_lshift msbit_mask poly crc_mask crc byte : Nat) :
    Nat :=
  let byte := if ref_in then REV8BITS byte else byte
  let crc := crc ^^^ (byte <<< msb_lshift)
  shift_rounds msbit_mask poly 8 crc &&& crc_mask

/-- `_CrcGeneric.calculate(data, seed=None)`. -/
def CrcGeneric.calculate (self : CrcGeneric) (data : List Nat) (seed : Option Nat) : Nat :=
  let crc := (seed.getD self.default_seed) <<< self.crc_lshift
  let poly := self.poly <<< self.crc_lshift
  let crc := data.foldl
    (fun crc byte => generic_byte_step self.ref_in self.msb_lshift self.msbit_mask poly
      self.crc_mask crc byte) crc
  let crc := crc >>> self.crc_lshift
  let crc := if self.ref_out then bit_reverse_n crc self.width else crc
  crc ^^^ self.xor_out

/-! ## Windowed engine -/

/-- `CrcParams` is imported from `crcengine.algorithms`, which is not part of
the sources under verification.  Modelled from the spec: the Parameter Set is
"the immutable description of one CRC algorithm (polynomial, width, seed,
reflection flags, XOR-out, ...)"; only the fields read by `_CrcWindowed` are
modelled. -/
structure CrcParams where
  polynomial : Nat
  width : Nat
  seed : Nat
  reflect_in : Bool
  reflect_out : Bool
  xor_out : Nat

/-- The class `_CrcWindowed` (fields set in `__init__` from a `CrcParams`). -/
structure CrcWindowed where
  poly : Nat
  width : Nat
  default_seed : Nat
  xor_out : Nat
  result_mask : Nat
  crc_lshift : Nat
  msb_lshift : Nat
  msbit_mask : Nat
  crc_mask : Nat
  ref_in : Bool
  ref_out : Bool

/-- `_CrcWindowed.__init__(params)`. -/
def CrcWindowed.init (params : CrcParams) : CrcWindowed :=
  let crc_lshift := if params.width < 8 then 8 - params.width else 0
  let msb_lshift := if params.width < 8 then 0 else params.width - 8
  { poly := params.polynomial, width := params.width, default_seed := params.seed,
    xor_out := params.xor_out,
    result_mask := (1 <<< params.width) - 1,
    crc_lshift, msb_lshift,
    msbit_mask := 1 <<< (params.width + crc_lshift - 1),
    crc_mask := (1 <<< (params.width + crc_lshift)) - 1,
    ref_in := params.reflect_in, ref_out := params.reflect_out }

/-- Per-index body of the loop in `_CrcWindowed.calculate`: fetch the byte,
optional input reflection, end-masking and `block_width` for the last byte,
alignment shift and round-count reduction for the first byte, xor into the
register, then `block_width` masked rounds. -/
def windowed_byte_step (data : List Nat) (ref_in : Bool)
    (first_byte : Int) (first_bit : Int) (last_byte : Int) (last_bit : Int)
    (end_mask msb_lshift msbit_mask poly crc_mask : Nat) (crc : Nat) (index : Nat) : Nat :=
  let byte := data.getD index 0
  let byte := if ref_in then REV8BITS byte else byte
  let byte := if (index : Int) = last_byte then byte &&& end_mask else byte
  let block_width : Int := if (index : Int) = last_byte then last_bit + 1 else 8
  let byte := if (index : Int) = first_byte then byte <<< first_bit.toNat else byte
  let block_width := if (index : Int) = first_byte then block_width - first_bit else block_width
  let crc := crc ^^^ (byte <<< msb_lshift)
  shift_rounds_masked msbit_mask poly crc_mask block_width.toNat crc

/-- `_CrcWindowed.calculate(data, start_bit=0, length_bits=None, seed=None)`.
Python `divmod(a, 8)` is floored division on a possibly negative `a`, which
for the positive divisor 8 agrees with `Int` division (`Int.ediv`/`Int.emod`);
`range(first_byte, last_byte + 1)` is the (possibly empty) run of indices from
`first_byte` (which the validation makes non-negative) to `last_byte`. -/
def CrcWindowed.calculate (self : CrcWindowed) (data : List Nat)
    (start_bit : Int) (length_bits : Option Int) (seed : Option Nat) : Option Nat :=
  let crc := seed.getD self.default_seed
  let num_input_bits : Int := 8 * data.length
  let length_bits := length_bits.getD (num_input_bits - start_bit)
  if start_bit ≥ num_input_bits ∨ start_bit < 0 then none
  else if length_bits < 0 then none
  else if start_bit + length_bits > num_input_bits then none
  else
    let first_byte := start_bit / 8
    let first_bit := start_bit % 8
    let last_byte := (start_bit + length_bits - 1) / 8
    let last_bit := (start_bit + length_bits - 1) % 8
    let end_mask := calc_end_mask last_bit
    let check_range := (List.range (last_byte + 1 - first_byte).toNat).map
      (fun k => first_byte.toNat + k)
    let crc := crc <<< self.crc_lshift
    let poly := self.poly <<< self.crc_lshift
    let crc := check_range.foldl
      (fun crc index => windowed_byte_step data self.ref_in first_byte first_bit
        last_byte last_bit end_mask self.msb_lshift self.msbit_mask poly self.crc_mask
        crc index) crc
    let crc := crc >>> self.crc_lshift
    let crc := if self.ref_out then bit_reverse_n crc self.width else crc
    some (crc ^^^ self.xor_out)

/-! ## Factory functions -/

/-- The engine returned by `create`: one of the two table-driven classes. -/
inductive TableEngine where
  | lsbf : CrcLsbfTable → TableEngine
  | msbf : CrcMsbfTable → TableEngine

/-- `calculate` on the engine returned by `create` (the lsb-first engine
cannot raise, so its result is wrapped in `some`). -/
def TableEngine.calculate : TableEngine → List Nat → Option Nat
  | .lsbf e, data => some (e.calculate data)
  | .msbf e, data => e.calculate data

/-- `create(poly, width, seed, ref_in, ref_out, xor_out)` from calc.py
(the `name` argument is ignored here): builds the lsb-first table engine with
`reverse_result = (ref_in != ref_out)` when `ref_in`, else the msb-first table
engine with `reverse_result = ref_out`. -/
def create (poly width seed : Nat) (ref_in ref_out : Bool) (xor_out : Nat) : TableEngine :=
  if ref_in then
    .lsbf (CrcLsbfTable.init (create_lsb_table poly width) width seed xor_out
      (ref_in != ref_out))
  else
    .msbf (CrcMsbfTable.init (create_msb_table poly width) width seed xor_out ref_out)

/-- `create_generic(poly, width, seed, ref_in, ref_out, xor_out)` from calc.py. -/
def create_generic (poly width seed : Nat) (ref_in ref_out : Bool) (xor_out : Nat) :
    CrcGeneric :=
  CrcGeneric.init poly width seed ref_in ref_out xor_out

/-- `create_windowed_todo(params)` from calc.py. -/
def create_windowed_todo (params : CrcParams) : CrcWindowed :=
  CrcWindowed.init params

/-! ## Auxiliary definitions used by the proofs -/

/-- `n` iterations of the lsb-first shift-register round of `create_lsb_table`. -/
def lsb_shift_rounds (poly : Nat) : Nat → Nat → Nat
  | 0, crc => crc
  | n + 1, crc => lsb_shift_rounds poly n (lsb_shift_round poly crc)

/-- Exclusive-or of `d k` over the set bits `k < N` of `i`: the value a
256-entry CRC table holds at index `i`, expressed from the values `d k` it
holds at the power-of-two indices. -/
def bitXorSum (d : Nat → Nat) : Nat → Nat → Nat
  | 0, _ => 0
  | k + 1, i => bitXorSum d k i ^^^ (if i.testBit k then d k else 0)

/-- The state `(table, crc)` of `create_msb_table`'s loop after `r` of its 8
rounds (`create_msb_table poly width = (msb_table_state poly width 8).1`). -/
def msb_table_state (poly width r : Nat) : List Nat × Nat :=
  (List.range r).foldl
    (fun (state : List Nat × Nat) k =>
      let i := 1 <<< k
      let crc := shift_round (1 <<< (width - 1)) poly state.2 &&& ((1 <<< width) - 1)
      (msb_table_fill i crc state.1, crc))
    (List.replicate 256 0, 1 <<< (width - 1))

/-- The state `(table, crc)` of `create_lsb_table`'s loop after `r` of its 8
rounds (`create_lsb_table poly width = (lsb_table_state poly width 8).1`). -/
def lsb_table_state (poly width r : Nat) : List Nat × Nat :=
  (List.range r).foldl
    (fun (state : List Nat × Nat) k =>
      let i := 0x80 >>> k
      let crc := lsb_shift_round (bit_reverse_n poly width) state.2
      (lsb_table_fill i crc state.1, crc))
    (List.replicate 256 0, 1)

/-! ## Basic bit-level facts -/

theorem testBit_eq_false_of_lt {x n t : Nat} (hx : x < 2 ^ n) (ht : n ≤ t) :
    x.testBit t = false :=
  Nat.testBit_lt_two_pow (lt_of_lt_of_le hx (Nat.pow_le_pow_right (by norm_num) ht))

/-- `bit_reverse_byte` reverses the eight bits of a byte value. -/
theorem bit_reverse_byte_testBit :
    ∀ b < 256, ∀ t < 8, (bit_reverse_byte b).testBit t = b.testBit (7 - t) := by decide

/-- `bit_reverse_byte` of a byte value is a byte value. -/
theorem bit_reverse_byte_lt : ∀ b < 256, bit_reverse_byte b < 256 := by decide

theorem REV8BITS_testBit {b : Nat} (hb : b < 256) {t : Nat} (ht : t < 8) :
    (REV8BITS b).testBit t = b.testBit (7 - t) :=
  bit_reverse_byte_testBit b hb t ht

theorem REV8BITS_lt {b : Nat} (hb : b < 256) : REV8BITS b < 256 :=
  bit_reverse_byte_lt b hb

/-- Bit `t` of the result of the byte-reversal loop: the low `8 * k` bits of
`value` appear bit-reversed, above them the bits of `result`. -/
theorem bit_reverse_loop_testBit :
    ∀ k result value t : Nat,
      (bit_reverse_loop k result value).testBit t
        = if t < 8 * k then value.testBit (8 * k - 1 - t) else result.testBit (t - 8 * k) := by
  intro k
  induction k with
  | zero => intro result value t; simp [bit_reverse_loop]
  | succ k ih =>
    intro result value t
    rw [bit_reverse_loop, ih]
    have hand : value &&& 0xFF < 256 := by
      have := Nat.and_pow_two_sub_one_eq_mod value 8
      norm_num at this ⊢
      omega
    by_cases h1 : t < 8 * k
    · rw [if_pos h1, if_pos (by omega), Nat.testBit_shiftRight]
      congr 1
      omega
    · rw [if_neg h1]
      by_cases h2 : t < 8 * (k + 1)
      · rw [if_pos h2, Nat.testBit_or, Nat.testBit_shiftLeft]
        have hge : ¬ (t - 8 * k ≥ 8) := by omega
        rw [decide_eq_false hge, Bool.false_and, Bool.false_or]
        rw [REV8BITS_testBit hand (by omega)]
        have : value &&& 0xFF = value % 2 ^ 8 := by
          have := Nat.and_pow_two_sub_one_eq_mod value 8
          norm_num at this ⊢
          omega
        rw [this, Nat.testBit_mod_two_pow]
        have h7 : 7 - (t - 8 * k) < 8 := by omega
        rw [decide_eq_true h7, Bool.true_and]
        congr 1
        omega
      · rw [if_neg h2, Nat.testBit_or, Nat.testBit_shiftLeft]
        have hge : t - 8 * k ≥ 8 := by omega
        rw [decide_eq_true hge, Bool.true_and]
        rw [testBit_eq_false_of_lt (REV8BITS_lt hand) (by omega : 8 ≤ t - 8 * k),
          Bool.or_false]
        congr 1 <;> omega

/-- Characterization of `bit_reverse_n`: bit `t` of the result is bit
`num_bits - 1 - t` of the input (for `t < num_bits`), and zero above. -/
theorem bit_reverse_n_testBit (x w t : Nat) :
    (bit_reverse_n x w).testBit t = if t < w then x.testBit (w - 1 - t) else false := by
  have hB : 8 * ((w + 7) >>> 3) = w + (8 - w % 8) % 8 := by
    rw [Nat.shiftRight_eq_div_pow]
    norm_num
    omega
  simp only [bit_reverse_n]
  rw [bit_reverse_loop_testBit]
  set m := (8 - w % 8) % 8 with hm
  set B := (w + 7) >>> 3 with hBdef
  by_cases h1 : t < 8 * B
  · rw [if_pos h1, Nat.testBit_shiftLeft]
    by_cases h2 : t < w
    · rw [if_pos h2]
      have hle : 8 * B - 1 - t ≥ m := by omega
      rw [decide_eq_true hle, Bool.true_and]
      congr 1
      omega
    · rw [if_neg h2]
      have hlt : ¬ (8 * B - 1 - t ≥ m) := by omega
      rw [decide_eq_false hlt, Bool.false_and]
  · rw [if_neg h1, if_neg (by omega), Nat.zero_testBit]

/-- `bit_reverse_n x w` fits in `w` bits. -/
theorem bit_reverse_n_lt (x w : Nat) : bit_reverse_n x w < 2 ^ w :=
  Nat.lt_pow_two_of_testBit _ (fun t ht => by
    rw [bit_reverse_n_testBit, if_neg (by omega)])

/-- `bit_reverse_n` only reads the low `w` bits of its input. -/
theorem bit_reverse_n_mod (x w : Nat) :
    bit_reverse_n (x % 2 ^ w) w = bit_reverse_n x w := by
  apply Nat.eq_of_testBit_eq
  intro t
  rw [bit_reverse_n_testBit, bit_reverse_n_testBit]
  by_cases h : t < w
  · rw [if_pos h, if_pos h, Nat.testBit_mod_two_pow, decide_eq_true (by omega : w - 1 - t < w),
      Bool.true_and]
  · rw [if_neg h, if_neg h]

/-- `bit_reverse_n` distributes over exclusive or. -/
theorem bit_reverse_n_xor (a b w : Nat) :
    bit_reverse_n (a ^^^ b) w = bit_reverse_n a w ^^^ bit_reverse_n b w := by
  apply Nat.eq_of_testBit_eq
  intro t
  rw [Nat.testBit_xor, bit_reverse_n_testBit, bit_reverse_n_testBit, bit_reverse_n_testBit,
    Nat.testBit_xor]
  by_cases h : t < w
  · rw [if_pos h, if_pos h, if_pos h]
  · rw [if_neg h, if_neg h, if_neg h, Bool.false_xor]

theorem bit_reverse_n_involution {x w : Nat} (hx : x < 2 ^ w) :
    bit_reverse_n (bit_reverse_n x w) w = x := by
  apply Nat.eq_of_testBit_eq
  intro t
  rw [bit_reverse_n_testBit]
  by_cases h : t < w
  · rw [if_pos h, bit_reverse_n_testBit, if_pos (by omega : w - 1 - t < w)]
    congr 1
    omega
  · rw [if_neg h, Eq.comm]
    exact testBit_eq_false_of_lt hx (by omega)

/-- C6: `bit_reverse_n` is an involution: for every `n` in 1..64 and every `x`
representable in `n` bits, `bit_reverse_n (bit_reverse_n x n) n = x`. -/
theorem c6_bit_reverse_involution (n x : Nat) (h1 : 1 ≤ n) (h64 : n ≤ 64)
    (hx : x < 2 ^ n) : bit_reverse_n (bit_reverse_n x n) n = x :=
  bit_reverse_n_involution hx

/-- Witness for C6 at `n = 8`, `x = 0x35`. -/
theorem c6_witness :
    1 ≤ 8 ∧ 8 ≤ 64 ∧ 0x35 < 2 ^ 8 ∧ bit_reverse_n (bit_reverse_n 0x35 8) 8 = 0x35 :=
  ⟨by decide, by decide, by decide,
    c6_bit_reverse_involution 8 0x35 (by decide) (by decide) (by decide)⟩

/-- C1: the engine built by `create` with the CRC-32 parameters maps the ASCII
bytes of `"123456789"` to `0xCBF43926`. -/
theorem c1_crc32_check :
    (create 0x04C11DB7 32 0xFFFFFFFF true true 0xFFFFFFFF).calculate
      [0x31, 0x32, 0x33, 0x34, 0x35, 0x36, 0x37, 0x38, 0x39] = some 0xCBF43926 := by
  decide

/-- Counterexample to C3 as stated: at width 4 with `ref_in = ref_out = false`
the table-driven engine raises (`remainder >> (width - 8)` is a negative-count
shift), while the generic engine returns a value, so the two do not return the
same CRC value for every parameter set. -/
theorem c3_counterexample :
    (create 3 4 0 false false 0).calculate [0]
      ≠ some ((create_generic 3 4 0 false false 0).calculate [0] none) := by
  decide

/-- Counterexample to C4 as stated: on the empty buffer the windowed engine
raises its start-bit range error (`start_bit >= num_input_bits` with both 0),
while the generic engine returns a value. -/
theorem c4_counterexample :
    (create_windowed_todo ⟨7, 8, 5, false, false, 0⟩).calculate [] 0 (some 0) none
      ≠ some ((create_generic 7 8 5 false false 0).calculate [] none) := by
  decide

/-- Counterexample to C5 as stated: for the byte-aligned empty sub-range
`[1,1)` of a 1-byte buffer (`start_bit = 8`, `length_bits = 0`) the windowed
engine raises its start-bit range error, while the generic engine on the empty
slice `data[1:1]` returns a value. -/
theorem c5_counterexample :
    (create_windowed_todo ⟨7, 8, 5, false, false, 0⟩).calculate [0xAB] 8 (some 0) none
      ≠ some ((create_generic 7 8 5 false false 0).calculate [] none) := by
  decide

/-- Counterexample to C7 as stated: the generic engine with `ref_out = true`
(seed 1, width 8, xor_out 0) returns `bit_reverse_n 1 8 = 0x80` on empty input,
not `seed XOR xor_out = 1`; the claim's caveat covers only the LSB-first
table-driven engine. -/
theorem c7_counterexample :
    (create_generic 1 8 1 false true 0).calculate [] none ≠ 1 ^^^ 0 := by
  decide

/-- Counterexample to C9 as stated: `create` with `width = 0` (and a non-zero
xor_out wider than the width) does not reject the parameters: it constructs an
engine whose `calculate` returns a value. -/
theorem c9_counterexample :
    (create 1 0 0 true true 5).calculate [49] = some 5 := by
  decide

/-- C10: the windowed engine's `calculate` on the empty byte string raises for
every `start_bit`, `length_bits` and `seed` (the check
`start_bit >= num_input_bits` fires whenever `start_bit < 0` does not);
no CRC value is ever returned for empty input. -/
theorem c10_windowed_empty_always_raises (params : CrcParams) (start_bit : Int)
    (length_bits : Option Int) (seed : Option Nat) :
    (create_windowed_todo params).calculate [] start_bit length_bits seed = none := by
  simp only [create_windowed_todo, CrcWindowed.calculate, List.length_nil,
    Nat.cast_zero, mul_zero]
  split
  · rfl
  · rename_i h
    exact absurd (by omega : start_bit ≥ 0 ∨ start_bit < 0) (by simpa using h)

/-- C8: the windowed engine's `calculate` raises exactly when `start_bit < 0`,
`start_bit ≥ total_bits`, `length_bits < 0`, or
`start_bit + length_bits > total_bits` (with `length_bits` defaulting to
`total_bits - start_bit`); the checks precede any CRC computation, and
otherwise a CRC value is returned. -/
theorem c8_windowed_range_check (params : CrcParams) (data : List Nat)
    (start_bit : Int) (length_bits : Option Int) (seed : Option Nat) :
    (create_windowed_todo params).calculate data start_bit length_bits seed = none
      ↔ (start_bit < 0 ∨ start_bit ≥ 8 * (data.length : Int)
          ∨ length_bits.getD (8 * data.length - start_bit) < 0
          ∨ start_bit + length_bits.getD (8 * data.length - start_bit)
              > 8 * (data.length : Int)) := by
  cases length_bits with
  | none =>
    simp only [create_windowed_todo, CrcWindowed.calculate, Option.getD_none]
    split_ifs with h1 h2 h3 <;> simp <;> omega
  | some l =>
    simp only [create_windowed_todo, CrcWindowed.calculate, Option.getD_some]
    split_ifs with h1 h2 h3 <;> simp <;> omega

/-- C7 amended: on the empty byte string every non-windowed engine returns
`r ^^^ xor_out` where `r = seed` when the engine applies no output reflection
and `r = bit_reverse_n seed width` when it does — for both table-driven
engines built by `create` and for the generic engine this is governed by
`ref_out` (given a seed fitting in `width` bits). -/
theorem c7_amended_empty_input (poly width seed xor_out : Nat) (ref_in ref_out : Bool)
    (hseed : seed < 2 ^ width) :
    (create poly width seed ref_in ref_out xor_out).calculate []
        = some ((if ref_out then bit_reverse_n seed width else seed) ^^^ xor_out)
    ∧ (create_generic poly width seed ref_in ref_out xor_out).calculate [] none
        = (if ref_out then bit_reverse_n seed width else seed) ^^^ xor_out := by
  constructor
  · cases ref_in with
    | true =>
      cases ref_out with
      | true =>
        simp [create, TableEngine.calculate, CrcLsbfTable.calculate, CrcLsbfTable.init]
      | false =>
        simp [create, TableEngine.calculate, CrcLsbfTable.calculate, CrcLsbfTable.init,
          bit_reverse_n_involution hseed]
    | false =>
      cases ref_out with
      | true =>
        simp [create, TableEngine.calculate, CrcMsbfTable.calculate, CrcMsbfTable.init]
      | false =>
        simp [create, TableEngine.calculate, CrcMsbfTable.calculate, CrcMsbfTable.init]
  · simp [create_generic, CrcGeneric.init, CrcGeneric.calculate]

/-- Witness for C7's amended statement at width 8, seed 1, `ref_out = true`. -/
theorem c7_amended_witness :
    (1 : Nat) < 2 ^ 8
    ∧ ((create 7 8 1 false true 9).calculate []
        = some ((if true then bit_reverse_n 1 8 else 1) ^^^ 9)
      ∧ (create_generic 7 8 1 false true 9).calculate [] none
        = (if true then bit_reverse_n 1 8 else 1) ^^^ 9) :=
  ⟨by decide, c7_amended_empty_input 7 8 1 9 false true (by decide)⟩

/-! ## Shift-register rounds: masking, linearity, small values -/

theorem and_two_pow_ne_zero_iff (c n : Nat) : c &&& 2 ^ n ≠ 0 ↔ c.testBit n = true := by
  constructor
  · intro h
    by_contra hb
    apply h
    apply Nat.eq_of_testBit_eq
    intro t
    rw [Nat.testBit_and, Nat.testBit_two_pow, Nat.zero_testBit]
    by_cases ht : n = t
    · subst ht
      simp only [Bool.not_eq_true] at hb
      simp [hb]
    · simp [ht]
  · intro h hz
    have h2 : (c &&& 2 ^ n).testBit n = false := by rw [hz]; exact Nat.zero_testBit n
    rw [Nat.testBit_and, h, Nat.testBit_two_pow_self] at h2
    simp at h2

theorem xor_shiftLeft (a b n : Nat) : (a ^^^ b) <<< n = a <<< n ^^^ b <<< n := by
  apply Nat.eq_of_testBit_eq
  intro t
  simp only [Nat.testBit_shiftLeft, Nat.testBit_xor]
  by_cases h : n ≤ t
  · simp [h]
  · simp [h]

theorem xor_left_comm (a b c : Nat) : a ^^^ (b ^^^ c) = b ^^^ (a ^^^ c) := by
  rw [← Nat.xor_assoc, Nat.xor_comm a b, Nat.xor_assoc]

theorem xor_xor_cancel (a b : Nat) : a ^^^ (a ^^^ b) = b := by
  rw [← Nat.xor_assoc, Nat.xor_self, Nat.zero_xor]

/-- A single shift-register round is GF(2)-linear (the polynomial term cancels
when both inputs have their top bit set). -/
theorem shift_round_xor (k poly a b : Nat) :
    shift_round (2 ^ k) poly (a ^^^ b)
      = shift_round (2 ^ k) poly a ^^^ shift_round (2 ^ k) poly b := by
  simp only [shift_round, ne_eq, ← Bool.not_eq_true, and_two_pow_ne_zero_iff, Nat.testBit_xor]
  cases ha : a.testBit k <;> cases hb : b.testBit k <;>
    simp [xor_shiftLeft, Nat.xor_assoc, Nat.xor_comm, xor_left_comm, xor_xor_cancel]

theorem shift_round_zero (k poly : Nat) : shift_round (2 ^ k) poly 0 = 0 := by
  simp [shift_round]

theorem shift_rounds_masked_xor (k poly mask : Nat) :
    ∀ (n a b : Nat), shift_rounds_masked (2 ^ k) poly mask n (a ^^^ b)
      = shift_rounds_masked (2 ^ k) poly mask n a
        ^^^ shift_rounds_masked (2 ^ k) poly mask n b := by
  intro n
  induction n with
  | zero => intro a b; rfl
  | succ n ih =>
    intro a b
    show shift_rounds_masked _ _ _ n _ = _
    rw [shift_round_xor, Nat.and_xor_distrib_right, ih]
    rfl

theorem shift_rounds_masked_zero (k poly mask : Nat) :
    ∀ n, shift_rounds_masked (2 ^ k) poly mask n 0 = 0 := by
  intro n
  induction n with
  | zero => rfl
  | succ n ih =>
    show shift_rounds_masked _ _ _ n _ = 0
    rw [shift_round_zero, Nat.zero_and]
    exact ih

/-- Masking the input of a masked round is redundant. -/
theorem shift_round_and_mask (W poly c : Nat) (hW : 1 ≤ W) :
    shift_round (2 ^ (W - 1)) poly (c &&& (2 ^ W - 1)) &&& (2 ^ W - 1)
      = shift_round (2 ^ (W - 1)) poly c &&& (2 ^ W - 1) := by
  have hc : (c &&& (2 ^ W - 1)).testBit (W - 1) = c.testBit (W - 1) := by
    rw [Nat.testBit_and, Nat.testBit_two_pow_sub_one, decide_eq_true (by omega : W - 1 < W),
      Bool.and_true]
  simp only [shift_round, ne_eq, ← Bool.not_eq_true, and_two_pow_ne_zero_iff, hc]
  split
  · apply Nat.eq_of_testBit_eq
    intro t
    simp only [Nat.testBit_and, Nat.testBit_xor, Nat.testBit_shiftLeft,
      Nat.testBit_two_pow_sub_one]
    by_cases ht : t < W
    · by_cases h1 : 1 ≤ t
      · simp [ht, h1, (by omega : t - 1 < W)]
      · simp [h1]
    · simp [ht]
  · apply Nat.eq_of_testBit_eq
    intro t
    simp only [Nat.testBit_and, Nat.testBit_shiftLeft, Nat.testBit_two_pow_sub_one]
    by_cases ht : t < W
    · by_cases h1 : 1 ≤ t
      · simp [ht, h1, (by omega : t - 1 < W)]
      · simp [h1]
    · simp [ht]

/-- At least one round: masking every round equals masking once at the end
(the top-bit test never looks above the mask). -/
theorem shift_rounds_masked_succ_eq (W poly : Nat) (hW : 1 ≤ W) :
    ∀ n c, shift_rounds_masked (2 ^ (W - 1)) poly (2 ^ W - 1) (n + 1) c
      = shift_rounds (2 ^ (W - 1)) poly (n + 1) c &&& (2 ^ W - 1) := by
  intro n
  induction n with
  | zero => intro c; rfl
  | succ n ih =>
    intro c
    show shift_rounds_masked _ _ _ (n + 1) (shift_round _ _ c &&& _)
      = shift_rounds _ _ (n + 1) (shift_round _ _ c) &&& _
    rw [ih]
    rw [← ih, ← ih]
    show shift_rounds_masked _ _ _ n
        (shift_round _ _ (shift_round _ _ c &&& (2 ^ W - 1)) &&& (2 ^ W - 1))
      = shift_rounds_masked _ _ _ n
        (shift_round _ _ (shift_round _ _ c) &&& (2 ^ W - 1))
    rw [shift_round_and_mask W poly _ hW]

/-- A value small enough never trips the top-bit test: `n` rounds are a plain
left shift. -/
theorem shift_rounds_masked_small (W poly : Nat) :
    ∀ n c, n ≤ W → c < 2 ^ (W - n) →
      shift_rounds_masked (2 ^ (W - 1)) poly (2 ^ W - 1) n c = c <<< n := by
  intro n
  induction n with
  | zero => intro c _ _; simp [shift_rounds_masked]
  | succ n ih =>
    intro c hn hc
    have htop : c.testBit (W - 1) = false :=
      testBit_eq_false_of_lt
        (lt_of_lt_of_le hc (Nat.pow_le_pow_right (by norm_num) (by omega))) (le_refl _)
    have hround : shift_round (2 ^ (W - 1)) poly c = c <<< 1 := by
      rw [shift_round, if_neg]
      simp only [ne_eq, ← Bool.not_eq_true, and_two_pow_ne_zero_iff, htop]
      simp
    have hlt : c <<< 1 < 2 ^ (W - n) := by
      rw [Nat.shiftLeft_eq, pow_one]
      have h2 : 2 ^ (W - (n + 1)) * 2 ≤ 2 ^ (W - n) := by
        rw [← pow_succ]
        exact Nat.pow_le_pow_right (by norm_num) (by omega)
      omega
    have hmask : c <<< 1 &&& (2 ^ W - 1) = c <<< 1 :=
      Nat.and_pow_two_sub_one_of_lt_two_pow
        (lt_of_lt_of_le hlt (Nat.pow_le_pow_right (by norm_num) (by omega)))
    show shift_rounds_masked _ _ _ n (shift_round _ _ c &&& _) = _
    rw [hround, hmask, ih (c <<< 1) (by omega) hlt, Nat.shiftLeft_shiftLeft]
    congr 1
    omega

/-! ## Windowed engine versus the generic engine (C4, C5) -/

/-- In a byte-aligned window (`first_bit = 0`, `last_bit = 7`, end mask 0xFF)
the windowed per-index processing coincides with the generic engine's
processing of the byte at that index. -/
theorem windowed_byte_step_full (data : List Nat) (ref_in : Bool)
    (first_byte last_byte : Int) (msb_lshift W poly : Nat) (hW : 1 ≤ W)
    (crc idx : Nat) (hb : data.getD idx 0 < 256) :
    windowed_byte_step data ref_in first_byte 0 last_byte 7 0xFF msb_lshift
        (2 ^ (W - 1)) poly (2 ^ W - 1) crc idx
      = generic_byte_step ref_in msb_lshift (2 ^ (W - 1)) poly (2 ^ W - 1) crc
          (data.getD idx 0) := by
  unfold windowed_byte_step generic_byte_step
  generalize hbg : data.getD idx 0 = b at hb ⊢
  have hrev : (if ref_in then REV8BITS b else b) < 2 ^ 8 := by
    cases ref_in
    · simpa using hb
    · simpa using REV8BITS_lt hb
  have hmask : (if ref_in then REV8BITS b else b) &&& 0xFF
      = (if ref_in then REV8BITS b else b) := by
    have := Nat.and_pow_two_sub_one_of_lt_two_pow hrev
    norm_num at this
    exact this
  have h8 : ∀ c, shift_rounds_masked (2 ^ (W - 1)) poly (2 ^ W - 1) 8 c
      = shift_rounds (2 ^ (W - 1)) poly 8 c &&& (2 ^ W - 1) := fun c =>
    shift_rounds_masked_succ_eq W poly hW 7 c
  by_cases hlast : (idx : Int) = last_byte <;> by_cases hfirst : (idx : Int) = first_byte <;>
    simp [hlast, hfirst, hmask, h8]

/-- Folding a per-index function over indices `start..start + n - 1` equals
folding a per-byte function over a list matching those positions. -/
theorem foldl_range_map_eq (g f : Nat → Nat → Nat) :
    ∀ (l : List Nat) (start c : Nat),
      (∀ c' k, k < l.length → g c' (start + k) = f c' (l.getD k 0)) →
      ((List.range l.length).map (fun k => start + k)).foldl g c = l.foldl f c := by
  intro l
  induction l with
  | nil => intro start c _; simp
  | cons x xs ih =>
    intro start c h
    have hr : List.range (x :: xs).length = 0 :: (List.range xs.length).map Nat.succ := by
      simpa using List.range_succ_eq_map xs.length
    rw [hr]
    simp only [List.map_cons, List.map_map, List.foldl_cons, Nat.add_zero]
    have hmap : (List.range xs.length).map ((fun k => start + k) ∘ Nat.succ)
        = (List.range xs.length).map (fun k => (start + 1) + k) := by
      apply List.map_congr_left
      intro k _
      simp only [Function.comp_apply, Nat.succ_eq_add_one]
      omega
    rw [hmap]
    have h0 := h c 0 (by simp)
    simp only [Nat.add_zero, List.getD_cons_zero] at h0
    rw [h0]
    exact ih (start + 1) (f c x) (fun c' k hk => by
      have hk1 := h c' (k + 1) (by simpa using Nat.succ_lt_succ hk)
      simpa [List.getD_cons_succ, Nat.add_assoc, Nat.add_comm 1 k] using hk1)

theorem foldl_range_map_eq' (g f : Nat → Nat → Nat) (l : List Nat) (start c n : Nat)
    (hn : n = l.length)
    (h : ∀ c' k, k < l.length → g c' (start + k) = f c' (l.getD k 0)) :
    ((List.range n).map (fun k => start + k)).foldl g c = l.foldl f c := by
  subst hn
  exact foldl_range_map_eq g f l start c h

theorem getD_lt_of_mem_lt {data : List Nat} (hbytes : ∀ x ∈ data, x < 256)
    {i : Nat} (hi : i < data.length) : data.getD i 0 < 256 := by
  rw [List.getD_eq_getElem?_getD, List.getElem?_eq_getElem hi]
  exact hbytes _ (List.getElem_mem hi)

/-- The byte-aligned positive-length window `[a, b)`: the windowed engine
equals the generic engine applied to the slice `data[a:b]` with the same seed
and flags. -/
theorem windowed_byte_aligned (params : CrcParams) (data : List Nat) (a b : Nat)
    (seed : Option Nat) (hab : a < b) (hble : b ≤ data.length)
    (hbytes : ∀ x ∈ data, x < 256) :
    (create_windowed_todo params).calculate data ((8 * a : Nat) : Int)
        (some ((8 * (b - a) : Nat) : Int)) seed
      = some ((create_generic params.polynomial params.width params.seed
          params.reflect_in params.reflect_out params.xor_out).calculate
          ((data.drop a).take (b - a)) seed) := by
  have hlen : a < data.length := lt_of_lt_of_le hab hble
  simp only [create_windowed_todo, CrcWindowed.init, CrcWindowed.calculate,
    create_generic, CrcGeneric.init, CrcGeneric.calculate, Option.getD_some]
  rw [if_neg (by omega : ¬ (((8 * a : Nat) : Int) ≥ 8 * (data.length : Int)
      ∨ ((8 * a : Nat) : Int) < 0)),
    if_neg (by omega : ¬ ((8 * (b - a) : Nat) : Int) < 0),
    if_neg (by omega : ¬ ((8 * a : Nat) : Int) + ((8 * (b - a) : Nat) : Int)
      > 8 * (data.length : Int))]
  have hfb : ((8 * a : Nat) : Int) / 8 = (a : Int) := by omega
  have hfbit : ((8 * a : Nat) : Int) % 8 = 0 := by omega
  have hlb : (((8 * a : Nat) : Int) + ((8 * (b - a) : Nat) : Int) - 1) / 8
      = ((b - 1 : Nat) : Int) := by omega
  have hlbit : (((8 * a : Nat) : Int) + ((8 * (b - a) : Nat) : Int) - 1) % 8 = 7 := by
    omega
  simp only [hfb, hfbit, hlb, hlbit, Int.toNat_ofNat,
    (by decide : calc_end_mask 7 = 0xFF)]
  have hcnt : (((b - 1 : Nat) : Int) + 1 - (a : Int)).toNat = b - a := by omega
  simp only [hcnt, Nat.one_shiftLeft]
  have hslen : ((data.drop a).take (b - a)).length = b - a := by
    simp only [List.length_take, List.length_drop]
    omega
  set ls := if params.width < 8 then 8 - params.width else 0 with hls
  set ml := if params.width < 8 then 0 else params.width - 8 with hml
  have hW : 1 ≤ params.width + ls := by rw [hls]; split <;> omega
  have hslice : ∀ k, k < b - a → ((data.drop a).take (b - a)).getD k 0
      = data.getD (a + k) 0 := by
    intro k hk
    rw [List.getD_eq_getElem?_getD, List.getD_eq_getElem?_getD,
      List.getElem?_take_of_lt hk, List.getElem?_drop]
  have hfold := foldl_range_map_eq'
    (fun crc index => windowed_byte_step data params.reflect_in (a : Int) 0
      ((b - 1 : Nat) : Int) 7 0xFF ml (2 ^ (params.width + ls - 1))
      (params.polynomial <<< ls) (2 ^ (params.width + ls) - 1) crc index)
    (fun crc byte => generic_byte_step params.reflect_in ml
      (2 ^ (params.width + ls - 1)) (params.polynomial <<< ls)
      (2 ^ (params.width + ls) - 1) crc byte)
    ((data.drop a).take (b - a)) a ((seed.getD params.seed) <<< ls) (b - a) hslen.symm
    (fun c' k hk => by
      rw [hslen] at hk
      rw [hslice k hk]
      exact windowed_byte_step_full data params.reflect_in (a : Int) ((b - 1 : Nat) : Int)
        ml (params.width + ls) (params.polynomial <<< ls) hW c' (a + k)
        (getD_lt_of_mem_lt hbytes (by omega)))
  rw [hfold]

/-- C4 amended: for every parameter set and every NON-EMPTY byte buffer, the
windowed engine with `start_bit = 0` and `length_bits` the total bit count
returns the same value as the full-buffer generic engine with the same seed
(on the empty buffer the windowed engine raises instead, see the
counterexample). -/
theorem c4_amended_full_window (params : CrcParams) (data : List Nat)
    (seed : Option Nat) (hne : data ≠ []) (hbytes : ∀ x ∈ data, x < 256) :
    (create_windowed_todo params).calculate data 0
        (some ((8 * data.length : Nat) : Int)) seed
      = some ((create_generic params.polynomial params.width params.seed
          params.reflect_in params.reflect_out params.xor_out).calculate data seed) := by
  have h := windowed_byte_aligned params data 0 data.length seed
    (List.length_pos.mpr hne) le_rfl hbytes
  simpa using h

/-- Witness for C4's amended statement on a concrete engine and buffer. -/
theorem c4_amended_witness :
    ([0xAB, 0x01] : List Nat) ≠ []
    ∧ (∀ x ∈ ([0xAB, 0x01] : List Nat), x < 256)
    ∧ (create_windowed_todo ⟨0x07, 8, 0x55, false, true, 0x13⟩).calculate [0xAB, 0x01] 0
        (some ((8 * ([0xAB, 0x01] : List Nat).length : Nat) : Int)) none
      = some ((create_generic 0x07 8 0x55 false true 0x13).calculate [0xAB, 0x01] none) :=
  ⟨by decide, by decide,
    c4_amended_full_window ⟨0x07, 8, 0x55, false, true, 0x13⟩ [0xAB, 0x01] none
      (by decide) (by decide)⟩

/-- C5 amended: for every byte-aligned sub-range `[a, b)` whose start byte is
inside the buffer (`a < data.length`, `a ≤ b ≤ data.length`), the windowed
engine over `start_bit = 8a, length_bits = 8(b-a)` equals the generic engine
over the slice `data[a:b]` with the same seed and flags (when `a = b =
data.length` the windowed engine raises instead, see the counterexample). -/
theorem c5_amended_byte_aligned_window (params : CrcParams) (data : List Nat)
    (a b : Nat) (seed : Option Nat) (ha : a < data.length) (hab : a ≤ b)
    (hble : b ≤ data.length) (hbytes : ∀ x ∈ data, x < 256) :
    (create_windowed_todo params).calculate data ((8 * a : Nat) : Int)
        (some ((8 * (b - a) : Nat) : Int)) seed
      = some ((create_generic params.polynomial params.width params.seed
          params.reflect_in params.reflect_out params.xor_out).calculate
          ((data.drop a).take (b - a)) seed) := by
  rcases Nat.lt_or_ge a b with h | h
  · exact windowed_byte_aligned params data a b seed h hble hbytes
  · have hba : b = a := by omega
    subst hba
    simp only [Nat.sub_self, List.take_zero]
    simp only [create_windowed_todo, CrcWindowed.init, CrcWindowed.calculate,
      create_generic, CrcGeneric.init, CrcGeneric.calculate, Option.getD_some]
    rw [if_neg (by omega : ¬ (((8 * b : Nat) : Int) ≥ 8 * (data.length : Int)
        ∨ ((8 * b : Nat) : Int) < 0)),
      if_neg (by omega : ¬ ((8 * 0 : Nat) : Int) < 0),
      if_neg (by omega : ¬ ((8 * b : Nat) : Int) + ((8 * 0 : Nat) : Int)
        > 8 * (data.length : Int))]
    have hcnt : ((((8 * b : Nat) : Int) + ((8 * 0 : Nat) : Int) - 1) / 8 + 1
        - ((8 * b : Nat) : Int) / 8).toNat = 0 := by omega
    simp only [hcnt, List.range_zero, List.map_nil, List.foldl_nil,
      Nat.shiftLeft_shiftRight]

/-! ## List.set and table-fill lemmas -/

theorem getD_set_ite (l : List Nat) (i j v : Nat) :
    (l.set i v).getD j 0 = if i = j ∧ i < l.length then v else l.getD j 0 := by
  rw [List.getD_eq_getElem?_getD, List.getD_eq_getElem?_getD, List.getElem?_set]
  by_cases h1 : i = j
  · subst h1
    by_cases h2 : i < l.length
    · simp [h2]
    · have hj : l[i]? = none := List.getElem?_eq_none (by omega)
      simp [h2, hj]
  · simp [h1]

theorem getD_replicate_zero (n m : Nat) : (List.replicate n 0).getD m 0 = 0 := by
  rw [List.getD_eq_getElem?_getD, List.getElem?_replicate]
  split <;> rfl

theorem foldl_set_length (f : List Nat → Nat → Nat) (pos : Nat → Nat) :
    ∀ (js : List Nat) (tbl : List Nat),
      (js.foldl (fun t j => t.set (pos j) (f t j)) tbl).length = tbl.length := by
  intro js
  induction js with
  | nil => intro tbl; rfl
  | cons j js ih => intro tbl; rw [List.foldl_cons, ih, List.length_set]

theorem msb_table_fill_length (i crc : Nat) (tbl : List Nat) :
    (msb_table_fill i crc tbl).length = tbl.length :=
  foldl_set_length (fun t j => t.getD j 0 ^^^ crc) (fun j => i + j) (List.range i) tbl

theorem lsb_table_fill_length (i crc : Nat) (tbl : List Nat) :
    (lsb_table_fill i crc tbl).length = tbl.length :=
  foldl_set_length (fun t m => crc ^^^ t.getD (m * (2 * i)) 0) (fun m => i + m * (2 * i))
    (List.range (256 / (2 * i))) tbl

/-- Partial runs of create_msb_table's fill loop: positions `i..i+K-1` hold
`tbl[j] ^^^ crc`, everything else is untouched. -/
theorem msb_table_fill_getD_aux (i crc : Nat) (tbl : List Nat) (hlen : tbl.length = 256)
    (h2i : i + i ≤ 256) :
    ∀ K, K ≤ i → ∀ n,
      ((List.range K).foldl (fun t j => t.set (i + j) (t.getD j 0 ^^^ crc)) tbl).getD n 0
        = if i ≤ n ∧ n < i + K then tbl.getD (n - i) 0 ^^^ crc else tbl.getD n 0 := by
  intro K
  induction K with
  | zero =>
    intro _ n
    rw [List.range_zero, List.foldl_nil, if_neg (by omega)]
  | succ K ih =>
    intro hK n
    rw [List.range_succ, List.foldl_append, List.foldl_cons, List.foldl_nil]
    have hplen : ((List.range K).foldl
        (fun t j => t.set (i + j) (t.getD j 0 ^^^ crc)) tbl).length = 256 := by
      rw [foldl_set_length (fun t j => t.getD j 0 ^^^ crc) (fun j => i + j)]
      exact hlen
    rw [getD_set_ite, hplen, ih (by omega) K, ih (by omega) n,
      if_neg (by omega : ¬ (i ≤ K ∧ K < i + K))]
    by_cases hn : i + K = n
    · rw [if_pos ⟨hn, by omega⟩, if_pos (by omega : i ≤ n ∧ n < i + (K + 1)),
        (by omega : n - i = K)]
    · rw [if_neg (by omega : ¬ (i + K = n ∧ i + K < 256))]
      by_cases hn2 : i ≤ n ∧ n < i + K
      · rw [if_pos hn2, if_pos (by omega)]
      · rw [if_neg hn2, if_neg (by omega)]

/-- The full fill loop of create_msb_table. -/
theorem msb_table_fill_getD (i crc : Nat) (tbl : List Nat) (hlen : tbl.length = 256)
    (h2i : i + i ≤ 256) (n : Nat) :
    (msb_table_fill i crc tbl).getD n 0
      = if i ≤ n ∧ n < i + i then tbl.getD (n - i) 0 ^^^ crc else tbl.getD n 0 :=
  msb_table_fill_getD_aux i crc tbl hlen h2i i le_rfl n

/-- Partial runs of create_lsb_table's fill loop: positions congruent to `i`
modulo `2i` that have been reached hold `crc ^^^ tbl[n - i]`. -/
theorem lsb_table_fill_getD_aux (i crc : Nat) (tbl : List Nat) (hlen : tbl.length = 256)
    (hi : 1 ≤ i) (h2i : 2 * i ≤ 256) :
    ∀ K, K ≤ 256 / (2 * i) → ∀ n,
      ((List.range K).foldl
          (fun t m => t.set (i + m * (2 * i)) (crc ^^^ t.getD (m * (2 * i)) 0)) tbl).getD n 0
        = if n % (2 * i) = i ∧ n / (2 * i) < K then crc ^^^ tbl.getD (n - i) 0
          else tbl.getD n 0 := by
  intro K
  induction K with
  | zero =>
    intro _ n
    rw [List.range_zero, List.foldl_nil, if_neg (fun h => Nat.not_lt_zero _ h.2)]
  | succ K ih =>
    intro hK n
    rw [List.range_succ, List.foldl_append, List.foldl_cons, List.foldl_nil]
    have hplen : ((List.range K).foldl
        (fun t m => t.set (i + m * (2 * i)) (crc ^^^ t.getD (m * (2 * i)) 0)) tbl).length
          = 256 := by
      rw [foldl_set_length (fun t m => crc ^^^ t.getD (m * (2 * i)) 0)
        (fun m => i + m * (2 * i))]
      exact hlen
    -- the position written this round and the position read
    have hpmod : (i + K * (2 * i)) % (2 * i) = i := by
      rw [Nat.add_mul_mod_self_right, Nat.mod_eq_of_lt (by omega)]
    have hpdiv : (i + K * (2 * i)) / (2 * i) = K := by
      rw [Nat.add_mul_div_right _ _ (by omega : 0 < 2 * i), Nat.div_eq_of_lt (by omega)]
      omega
    have hqmod : (K * (2 * i)) % (2 * i) = 0 := Nat.mul_mod_left K (2 * i)
    have hpbound : i + K * (2 * i) < 256 := by
      have h2 : (K + 1) * (2 * i) ≤ 256 := (Nat.le_div_iff_mul_le (by omega : 0 < 2 * i)).mp hK
      have h3 : (K + 1) * (2 * i) = K * (2 * i) + 2 * i := by ring
      omega
    rw [getD_set_ite, hplen, ih (by omega) (K * (2 * i)), ih (by omega) n,
      if_neg (by omega : ¬ ((K * (2 * i)) % (2 * i) = i ∧ K * (2 * i) / (2 * i) < K))]
    by_cases hn : i + K * (2 * i) = n
    · subst hn
      rw [if_pos ⟨rfl, by omega⟩,
        if_pos (⟨by omega, by omega⟩ : (i + K * (2 * i)) % (2 * i) = i
          ∧ (i + K * (2 * i)) / (2 * i) < K + 1),
        (by omega : i + K * (2 * i) - i = K * (2 * i))]
    · rw [if_neg (by
        rintro ⟨he, _⟩
        exact hn he)]
      have hdm := Nat.div_add_mod n (2 * i)
      by_cases hn2 : n % (2 * i) = i ∧ n / (2 * i) < K
      · rw [if_pos hn2, if_pos ⟨hn2.1, by omega⟩]
      · rw [if_neg hn2, if_neg (by
          rintro ⟨hm, hd⟩
          apply hn2
          refine ⟨hm, ?_⟩
          rcases Nat.lt_or_ge (n / (2 * i)) K with h | h
          · exact h
          · exfalso
            apply hn
            have hdK : n / (2 * i) = K := by omega
            rw [← hdm, hdK, hm]
            ring)]

/-! ## bitXorSum: linearity and values at powers of two -/

theorem bitXorSum_zero_input (d : Nat → Nat) : ∀ N, bitXorSum d N 0 = 0 := by
  intro N
  induction N with
  | zero => rfl
  | succ N ih => simp [bitXorSum, ih]

theorem bitXorSum_xor (d : Nat → Nat) : ∀ N a b,
    bitXorSum d N (a ^^^ b) = bitXorSum d N a ^^^ bitXorSum d N b := by
  intro N
  induction N with
  | zero => intro a b; simp [bitXorSum]
  | succ N ih =>
    intro a b
    simp only [bitXorSum, ih, Nat.testBit_xor]
    cases ha : a.testBit N <;> cases hb : b.testBit N <;>
      simp [Nat.xor_assoc, Nat.xor_comm, xor_left_comm, xor_xor_cancel]

theorem bitXorSum_eq_zero_of_high (d : Nat → Nat) :
    ∀ N i, (∀ m, m < N → i.testBit m = false) → bitXorSum d N i = 0 := by
  intro N
  induction N with
  | zero => intro i _; rfl
  | succ N ih =>
    intro i h
    simp only [bitXorSum, h N (by omega), if_false, Bool.false_eq_true, Nat.xor_zero]
    exact ih i (fun m hm => h m (by omega))

theorem bitXorSum_two_pow (d : Nat → Nat) : ∀ N k, k < N → bitXorSum d N (2 ^ k) = d k := by
  intro N
  induction N with
  | zero => intro k hk; exact absurd hk (Nat.not_lt_zero k)
  | succ N ih =>
    intro k hk
    simp only [bitXorSum]
    by_cases hkN : k = N
    · rw [hkN, Nat.testBit_two_pow_self, if_pos rfl,
        bitXorSum_eq_zero_of_high d N _ (fun m hm =>
          Nat.testBit_two_pow_of_ne (by omega)), Nat.zero_xor]
    · rw [Nat.testBit_two_pow_of_ne (by omega), if_neg (by simp), Nat.xor_zero]
      exact ih k (by omega)

/-- Flipping one bit of the index flips one `d`-term of the sum. -/
theorem bitXorSum_flip (d : Nat → Nat) {N n e : Nat} (he : e < N) :
    bitXorSum d N n = bitXorSum d N (n ^^^ 2 ^ e) ^^^ d e := by
  conv_lhs => rw [show n = (n ^^^ 2 ^ e) ^^^ 2 ^ e by
    rw [Nat.xor_assoc, Nat.xor_self, Nat.xor_zero]]
  rw [bitXorSum_xor, bitXorSum_two_pow d N e he]

/-- Subtracting `2^e` from a number whose bit `e` is set clears that bit:
no borrow occurs, so it agrees with exclusive or. -/
theorem sub_two_pow_eq_xor {n e : Nat} (h : n.testBit e = true) :
    n - 2 ^ e = n ^^^ 2 ^ e := by
  have hpow : 2 ^ (e + 1) = 2 * 2 ^ e := by rw [pow_succ]; ring
  have hq := Nat.div_add_mod n (2 ^ (e + 1))
  have hrem_lt : n % 2 ^ (e + 1) < 2 ^ (e + 1) := Nat.mod_lt _ (Nat.two_pow_pos _)
  have hbit : (n % 2 ^ (e + 1)).testBit e = true := by
    rw [Nat.testBit_mod_two_pow, decide_eq_true (by omega : e < e + 1), Bool.true_and]
    exact h
  have hge : 2 ^ e ≤ n % 2 ^ (e + 1) := Nat.testBit_implies_ge hbit
  have hsub : n - 2 ^ e = 2 ^ (e + 1) * (n / 2 ^ (e + 1)) + (n % 2 ^ (e + 1) - 2 ^ e) := by
    omega
  have hremdiv : n % 2 ^ (e + 1) / 2 ^ e = 1 :=
    Nat.div_eq_of_lt_le (by omega) (by omega)
  have hremmod : n % 2 ^ (e + 1) - 2 ^ e = n % 2 ^ (e + 1) % 2 ^ e := by
    have := Nat.div_add_mod (n % 2 ^ (e + 1)) (2 ^ e)
    rw [hremdiv] at this
    omega
  apply Nat.eq_of_testBit_eq
  intro t
  rw [hsub, Nat.testBit_mul_pow_two_add _ (by omega : n % 2 ^ (e + 1) - 2 ^ e < 2 ^ (e + 1)),
    Nat.testBit_xor]
  conv_rhs => rw [show n = 2 ^ (e + 1) * (n / 2 ^ (e + 1)) + n % 2 ^ (e + 1) by omega]
  rw [Nat.testBit_mul_pow_two_add _ hrem_lt, Nat.testBit_two_pow]
  by_cases ht : t < e + 1
  · rw [if_pos ht, if_pos ht]
    by_cases hte : t = e
    · subst hte
      rw [hremmod, Nat.testBit_mod_two_pow, decide_eq_false (by omega : ¬ t < t),
        Bool.false_and, hbit, decide_eq_true rfl]
      rfl
    · rw [hremmod, Nat.testBit_mod_two_pow, decide_eq_true (by omega : t < e),
        Bool.true_and, decide_eq_false (by omega : ¬ e = t), Bool.xor_false]
  · rw [if_neg ht, if_neg ht, decide_eq_false (by omega : ¬ e = t), Bool.xor_false]

theorem testBit_true_of_bounds {n r : Nat} (h1 : 2 ^ r ≤ n) (h2 : n < 2 ^ (r + 1)) :
    n.testBit r = true := by
  have hpow : 2 ^ (r + 1) = 2 * 2 ^ r := by rw [pow_succ]; ring
  have hd : n / 2 ^ r = 1 := Nat.div_eq_of_lt_le (by omega) (by omega)
  rw [Nat.testBit_to_div_mod, hd]
  rfl

/-- A GF(2)-linear function determined on the powers of two below `2^N` is
`bitXorSum` of its power values. -/
theorem bitXorSum_eq_fun (d : Nat → Nat) (F : Nat → Nat) (N : Nat)
    (hF0 : F 0 = 0)
    (hFx : ∀ a b, a < 2 ^ N → b < 2 ^ N → F (a ^^^ b) = F a ^^^ F b)
    (hpow : ∀ k, k < N → F (2 ^ k) = d k) :
    ∀ n, n < 2 ^ N → bitXorSum d N n = F n := by
  intro n
  induction n using Nat.strong_induction_on with
  | _ n ih =>
    intro hn
    by_cases h0 : n = 0
    · subst h0
      rw [bitXorSum_zero_input, hF0]
    · have h1 : 2 ^ n.log2 ≤ n := Nat.log2_self_le h0
      have h2 : n < 2 ^ (n.log2 + 1) := Nat.lt_log2_self
      have htN : n.log2 < N := by
        by_contra hc
        push_neg at hc
        have h3 : 2 ^ N ≤ 2 ^ n.log2 := Nat.pow_le_pow_right (by norm_num) hc
        omega
      have htb : n.testBit n.log2 = true := testBit_true_of_bounds h1 h2
      have hmlt : n ^^^ 2 ^ n.log2 < 2 ^ n.log2 := by
        rw [← sub_two_pow_eq_xor htb]
        have hd : n / 2 ^ n.log2 = 1 := Nat.div_eq_of_lt_le
          (by omega) (by
            have hpow : 2 ^ (n.log2 + 1) = 2 * 2 ^ n.log2 := by rw [pow_succ]; ring
            omega)
        have := Nat.div_add_mod n (2 ^ n.log2)
        have hmod : n % 2 ^ n.log2 < 2 ^ n.log2 := Nat.mod_lt _ (Nat.two_pow_pos _)
        omega
      have hxn : (n ^^^ 2 ^ n.log2) ^^^ 2 ^ n.log2 = n := by
        rw [Nat.xor_assoc, Nat.xor_self, Nat.xor_zero]
      calc bitXorSum d N n
          = bitXorSum d N (n ^^^ 2 ^ n.log2) ^^^ d n.log2 := bitXorSum_flip d htN
        _ = F (n ^^^ 2 ^ n.log2) ^^^ F (2 ^ n.log2) := by
            rw [ih _ (by omega) (by
                exact lt_of_lt_of_le hmlt (Nat.pow_le_pow_right (by norm_num) (by omega))),
              hpow _ htN]
        _ = F ((n ^^^ 2 ^ n.log2) ^^^ 2 ^ n.log2) :=
            (hFx _ _ (lt_of_lt_of_le hmlt (Nat.pow_le_pow_right (by norm_num) (by omega)))
              (Nat.pow_lt_pow_right (by norm_num) htN)).symm
        _ = F n := by rw [hxn]

/-! ## Characterization of create_msb_table -/

theorem create_msb_table_eq_state (poly width : Nat) :
    create_msb_table poly width = (msb_table_state poly width 8).1 := rfl

theorem msb_table_state_succ (poly width r : Nat) :
    msb_table_state poly width (r + 1)
      = (msb_table_fill (1 <<< r)
          (shift_round (1 <<< (width - 1)) poly (msb_table_state poly width r).2
            &&& ((1 <<< width) - 1)) (msb_table_state poly width r).1,
         shift_round (1 <<< (width - 1)) poly (msb_table_state poly width r).2
            &&& ((1 <<< width) - 1)) := by
  unfold msb_table_state
  rw [List.range_succ, List.foldl_append, List.foldl_cons, List.foldl_nil]

theorem shift_rounds_masked_succ_outer (ms poly mask : Nat) : ∀ n c,
    shift_rounds_masked ms poly mask (n + 1) c
      = shift_round ms poly (shift_rounds_masked ms poly mask n c) &&& mask := by
  intro n
  induction n with
  | zero => intro c; rfl
  | succ n ih =>
    intro c
    show shift_rounds_masked ms poly mask (n + 1) (shift_round ms poly c &&& mask) = _
    rw [ih]
    rfl

theorem msb_table_state_snd (poly width : Nat) : ∀ r,
    (msb_table_state poly width r).2
      = shift_rounds_masked (2 ^ (width - 1)) poly (2 ^ width - 1) r (2 ^ (width - 1)) := by
  intro r
  induction r with
  | zero =>
    show 1 <<< (width - 1) = _
    rw [Nat.one_shiftLeft]
    rfl
  | succ r ih =>
    rw [msb_table_state_succ]
    show shift_round (1 <<< (width - 1)) poly (msb_table_state poly width r).2
        &&& ((1 <<< width) - 1) = _
    rw [ih, Nat.one_shiftLeft, Nat.one_shiftLeft, shift_rounds_masked_succ_outer]

theorem msb_table_state_length (poly width : Nat) : ∀ r,
    (msb_table_state poly width r).1.length = 256 := by
  intro r
  induction r with
  | zero => simp [msb_table_state]
  | succ r ih =>
    rw [msb_table_state_succ]
    show (msb_table_fill _ _ _).length = 256
    rw [msb_table_fill_length]
    exact ih

theorem msb_table_state_getD (poly width : Nat) : ∀ r, r ≤ 8 → ∀ n, n < 256 →
    (msb_table_state poly width r).1.getD n 0
      = if n < 2 ^ r then
          bitXorSum (fun k => shift_rounds_masked (2 ^ (width - 1)) poly (2 ^ width - 1)
            (k + 1) (2 ^ (width - 1))) 8 n
        else 0 := by
  intro r
  induction r with
  | zero =>
    intro _ n hn
    show (List.replicate 256 0).getD n 0 = _
    rw [getD_replicate_zero]
    have h1 : (2:Nat) ^ 0 = 1 := pow_zero 2
    by_cases h0 : n < 2 ^ 0
    · rw [if_pos h0, show n = 0 by omega, bitXorSum_zero_input]
    · rw [if_neg h0]
  | succ r ih =>
    intro hr n hn
    rw [msb_table_state_succ]
    show (msb_table_fill (1 <<< r) _ _).getD n 0 = _
    simp only [Nat.one_shiftLeft]
    have hr7 : (2:Nat) ^ r ≤ 2 ^ 7 := Nat.pow_le_pow_right (by norm_num) (by omega)
    have h27 : (2:Nat) ^ 7 = 128 := by norm_num
    rw [msb_table_fill_getD (2 ^ r) _ _ (msb_table_state_length poly width r) (by omega) n]
    have hcrc : shift_round (2 ^ (width - 1)) poly (msb_table_state poly width r).2
        &&& (2 ^ width - 1)
        = shift_rounds_masked (2 ^ (width - 1)) poly (2 ^ width - 1) (r + 1)
            (2 ^ (width - 1)) := by
      rw [msb_table_state_snd, shift_rounds_masked_succ_outer]
    rw [hcrc]
    have hpow : (2:Nat) ^ (r + 1) = 2 ^ r + 2 ^ r := by rw [pow_succ]; ring
    by_cases hcase : n < 2 ^ r
    · rw [if_neg (by omega), ih (by omega) n hn, if_pos hcase, if_pos (by omega)]
    · by_cases hcase2 : n < 2 ^ (r + 1)
      · rw [if_pos (by omega), ih (by omega) (n - 2 ^ r) (by omega), if_pos (by omega),
          if_pos hcase2]
        have htb : n.testBit r = true := testBit_true_of_bounds (by omega) (by omega)
        rw [sub_two_pow_eq_xor htb]
        exact (bitXorSum_flip _ (by omega : r < 8)).symm
      · rw [if_neg (by omega), ih (by omega) n hn, if_neg (by omega), if_neg (by omega)]

theorem create_msb_table_getD (poly width n : Nat) (hn : n < 256) :
    (create_msb_table poly width).getD n 0
      = bitXorSum (fun k => shift_rounds_masked (2 ^ (width - 1)) poly (2 ^ width - 1)
          (k + 1) (2 ^ (width - 1))) 8 n := by
  have h8 : (2:Nat) ^ 8 = 256 := by norm_num
  rw [create_msb_table_eq_state, msb_table_state_getD poly width 8 le_rfl n hn,
    if_pos (by omega)]

theorem create_msb_table_length (poly width : Nat) :
    (create_msb_table poly width).length = 256 := by
  rw [create_msb_table_eq_state]
  exact msb_table_state_length poly width 8

/-! ## Characterization of create_lsb_table -/

theorem create_lsb_table_eq_state (poly width : Nat) :
    create_lsb_table poly width = (lsb_table_state poly width 8).1 := rfl

theorem lsb_table_state_succ (poly width r : Nat) :
    lsb_table_state poly width (r + 1)
      = (lsb_table_fill (0x80 >>> r)
          (lsb_shift_round (bit_reverse_n poly width) (lsb_table_state poly width r).2)
          (lsb_table_state poly width r).1,
         lsb_shift_round (bit_reverse_n poly width) (lsb_table_state poly width r).2) := by
  unfold lsb_table_state
  rw [List.range_succ, List.foldl_append, List.foldl_cons, List.foldl_nil]

theorem lsb_shift_rounds_succ_outer (poly : Nat) : ∀ n c,
    lsb_shift_rounds poly (n + 1) c = lsb_shift_round poly (lsb_shift_rounds poly n c) := by
  intro n
  induction n with
  | zero => intro c; rfl
  | succ n ih =>
    intro c
    show lsb_shift_rounds poly (n + 1) (lsb_shift_round poly c) = _
    rw [ih]
    rfl

theorem lsb_table_state_snd (poly width : Nat) : ∀ r,
    (lsb_table_state poly width r).2 = lsb_shift_rounds (bit_reverse_n poly width) r 1 := by
  intro r
  induction r with
  | zero => rfl
  | succ r ih =>
    rw [lsb_table_state_succ]
    show lsb_shift_round (bit_reverse_n poly width) (lsb_table_state poly width r).2 = _
    rw [ih, ← lsb_shift_rounds_succ_outer]

theorem lsb_table_state_length (poly width : Nat) : ∀ r,
    (lsb_table_state poly width r).1.length = 256 := by
  intro r
  induction r with
  | zero => simp [lsb_table_state]
  | succ r ih =>
    rw [lsb_table_state_succ]
    show (lsb_table_fill _ _ _).length = 256
    rw [lsb_table_fill_length]
    exact ih

theorem lsb_table_fill_getD (i crc : Nat) (tbl : List Nat) (hlen : tbl.length = 256)
    (hi : 1 ≤ i) (h2i : 2 * i ≤ 256) (n : Nat) :
    (lsb_table_fill i crc tbl).getD n 0
      = if n % (2 * i) = i ∧ n / (2 * i) < 256 / (2 * i) then crc ^^^ tbl.getD (n - i) 0
        else tbl.getD n 0 :=
  lsb_table_fill_getD_aux i crc tbl hlen hi h2i (256 / (2 * i)) le_rfl n

theorem testBit_of_mod_eq {n e : Nat} (h : n % 2 ^ (e + 1) = 2 ^ e) :
    n.testBit e = true := by
  have h1 : (n % 2 ^ (e + 1)).testBit e = n.testBit e := by
    rw [Nat.testBit_mod_two_pow, decide_eq_true (by omega : e < e + 1), Bool.true_and]
  rw [← h1, h, Nat.testBit_two_pow_self]

theorem lsb_table_state_getD (poly width : Nat) : ∀ r, r ≤ 8 → ∀ n, n < 256 →
    (lsb_table_state poly width r).1.getD n 0
      = if n % 2 ^ (8 - r) = 0 then
          bitXorSum (fun k => lsb_shift_rounds (bit_reverse_n poly width) (8 - k) 1) 8 n
        else 0 := by
  intro r
  induction r with
  | zero =>
    intro _ n hn
    show (List.replicate 256 0).getD n 0 = _
    rw [getD_replicate_zero]
    have h256 : (2:Nat) ^ (8 - 0) = 256 := by norm_num
    by_cases h0 : n % 2 ^ (8 - 0) = 0
    · rw [if_pos h0, show n = 0 by omega, bitXorSum_zero_input]
    · rw [if_neg h0]
  | succ r ih =>
    intro hr n hn
    rw [lsb_table_state_succ]
    show (lsb_table_fill (0x80 >>> r) _ _).getD n 0 = _
    have hi : (0x80 : Nat) >>> r = 2 ^ (7 - r) := by
      rw [Nat.shiftRight_eq_div_pow, show (0x80 : Nat) = 2 ^ 7 by norm_num]
      exact Nat.pow_div (by omega) (by norm_num)
    rw [hi]
    set e := 7 - r with he
    have h2e : 2 * 2 ^ e = 2 ^ (e + 1) := by rw [pow_succ]; ring
    have he8 : (2:Nat) ^ (e + 1) ≤ 2 ^ 8 := Nat.pow_le_pow_right (by norm_num) (by omega)
    have h28 : (2:Nat) ^ 8 = 256 := by norm_num
    have h8r : 8 - r = e + 1 := by omega
    have h8r1 : 8 - (r + 1) = e := by omega
    rw [lsb_table_fill_getD (2 ^ e) _ _ (lsb_table_state_length poly width r)
      (Nat.one_le_two_pow) (by omega) n]
    have hcrc : lsb_shift_round (bit_reverse_n poly width) (lsb_table_state poly width r).2
        = lsb_shift_rounds (bit_reverse_n poly width) (8 - e) 1 := by
      rw [lsb_table_state_snd, ← lsb_shift_rounds_succ_outer,
        show 8 - e = r + 1 by omega]
    have hdivlt : n / (2 * 2 ^ e) < 256 / (2 * 2 ^ e) := by
      rw [h2e, show (256:Nat) = 2 ^ 8 by norm_num,
        Nat.pow_div (by omega) (by norm_num)]
      refine Nat.div_lt_of_lt_mul ?_
      rw [← pow_add, show e + 1 + (8 - (e + 1)) = 8 by omega]
      omega
    rw [h8r1]
    by_cases hcond : n % (2 * 2 ^ e) = 2 ^ e
    · rw [if_pos ⟨hcond, hdivlt⟩]
      have hcond' : n % 2 ^ (e + 1) = 2 ^ e := by rw [← h2e]; exact hcond
      have htb : n.testBit e = true := testBit_of_mod_eq hcond'
      have hdm := Nat.div_add_mod n (2 ^ (e + 1))
      have hsubmod : (n - 2 ^ e) % 2 ^ (e + 1) = 0 := by
        have h1 : n - 2 ^ e = 2 ^ (e + 1) * (n / 2 ^ (e + 1)) := by omega
        rw [h1, Nat.mul_mod_right]
      rw [ih (by omega) (n - 2 ^ e) (by omega), h8r, if_pos hsubmod, hcrc,
        sub_two_pow_eq_xor htb]
      have hnewcond : n % 2 ^ e = 0 := by
        rw [← Nat.mod_mod_of_dvd n (pow_dvd_pow 2 (by omega : e ≤ e + 1)), hcond',
          Nat.mod_self]
      rw [if_pos hnewcond, Nat.xor_comm]
      exact (bitXorSum_flip _ (by omega : e < 8)).symm
    · rw [if_neg (fun hc => hcond hc.1), ih (by omega) n hn, h8r]
      have hsplit : n % 2 ^ (e + 1) = n % 2 ^ e + 2 ^ e * (n / 2 ^ e % 2) := by
        rw [pow_succ]
        exact Nat.mod_mul
      by_cases hlow : n % 2 ^ e = 0
      · rcases Nat.mod_two_eq_zero_or_one (n / 2 ^ e) with hp | hp
        · have hz : n % 2 ^ (e + 1) = 0 := by rw [hsplit, hlow, hp]; ring
          rw [if_pos hz, if_pos hlow]
        · have hz : n % 2 ^ (e + 1) = 2 ^ e := by rw [hsplit, hlow, hp]; ring
          exact absurd (by rw [h2e]; exact hz) hcond
      · rw [if_neg (fun hc => hlow (by
            rw [← Nat.mod_mod_of_dvd n (pow_dvd_pow 2 (by omega : e ≤ e + 1)), hc,
              Nat.zero_mod])),
          if_neg hlow]

theorem create_lsb_table_getD (poly width n : Nat) (hn : n < 256) :
    (create_lsb_table poly width).getD n 0
      = bitXorSum (fun k => lsb_shift_rounds (bit_reverse_n poly width) (8 - k) 1) 8 n := by
  rw [create_lsb_table_eq_state, lsb_table_state_getD poly width 8 le_rfl n hn,
    show (8:Nat) - 8 = 0 from rfl, pow_zero, if_pos (Nat.mod_one n)]

theorem create_lsb_table_length (poly width : Nat) :
    (create_lsb_table poly width).length = 256 := by
  rw [create_lsb_table_eq_state]
  exact lsb_table_state_length poly width 8

/-- C2: for every polynomial fitting in `width` bits and width ≥ 1, both
256-entry tables are XOR-linear: `table[i ^^^ j] = table[i] ^^^ table[j]`
for all indices below 256. -/
theorem c2_tables_xor_linear (poly width : Nat) (hw : 1 ≤ width)
    (hpoly : poly < 2 ^ width) (i j : Nat) (hi : i < 256) (hj : j < 256) :
    (create_msb_table poly width).getD (i ^^^ j) 0
        = (create_msb_table poly width).getD i 0 ^^^ (create_msb_table poly width).getD j 0
    ∧ (create_lsb_table poly width).getD (i ^^^ j) 0
        = (create_lsb_table poly width).getD i 0
          ^^^ (create_lsb_table poly width).getD j 0 := by
  have h8 : (2:Nat) ^ 8 = 256 := by norm_num
  have hxor : i ^^^ j < 256 := by
    have := Nat.xor_lt_two_pow (x := i) (y := j) (n := 8) (by omega) (by omega)
    omega
  constructor
  · rw [create_msb_table_getD poly width _ hxor, create_msb_table_getD poly width _ hi,
      create_msb_table_getD poly width _ hj, bitXorSum_xor]
  · rw [create_lsb_table_getD poly width _ hxor, create_lsb_table_getD poly width _ hi,
      create_lsb_table_getD poly width _ hj, bitXorSum_xor]

/-- Witness for C2 at the CRC-8 polynomial 0x07, width 8, indices 3 and 5. -/
theorem c2_witness :
    1 ≤ 8 ∧ (7:Nat) < 2 ^ 8 ∧ (3:Nat) < 256 ∧ (5:Nat) < 256
    ∧ ((create_msb_table 7 8).getD (3 ^^^ 5) 0
        = (create_msb_table 7 8).getD 3 0 ^^^ (create_msb_table 7 8).getD 5 0
      ∧ (create_lsb_table 7 8).getD (3 ^^^ 5) 0
        = (create_lsb_table 7 8).getD 3 0 ^^^ (create_lsb_table 7 8).getD 5 0) :=
  ⟨by decide, by decide, by decide, by decide,
    c2_tables_xor_linear 7 8 (by decide) (by decide) 3 5 (by decide) (by decide)⟩

/-! ## Bit-reversal commutation and byte decomposition (towards C3) -/

theorem REV8BITS_lt_pow {b : Nat} (hb : b < 256) : REV8BITS b < 2 ^ 8 := by
  have h := REV8BITS_lt hb
  norm_num
  exact h

theorem REV8BITS_xor {a b : Nat} (ha : a < 256) (hb : b < 256) :
    REV8BITS (a ^^^ b) = REV8BITS a ^^^ REV8BITS b := by
  have hx : a ^^^ b < 256 := by
    have h8 : (2:Nat) ^ 8 = 256 := by norm_num
    have := Nat.xor_lt_two_pow (x := a) (y := b) (n := 8) (by omega) (by omega)
    omega
  apply Nat.eq_of_testBit_eq
  intro t
  by_cases ht : t < 8
  · rw [REV8BITS_testBit hx ht, Nat.testBit_xor, Nat.testBit_xor,
      REV8BITS_testBit ha ht, REV8BITS_testBit hb ht]
  · rw [testBit_eq_false_of_lt (REV8BITS_lt_pow hx) (by omega), Nat.testBit_xor,
      testBit_eq_false_of_lt (REV8BITS_lt_pow ha) (by omega),
      testBit_eq_false_of_lt (REV8BITS_lt_pow hb) (by omega)]
    rfl

theorem REV8BITS_involutive : ∀ b < 256, REV8BITS (REV8BITS b) = b := by decide

theorem REV8BITS_two_pow : ∀ t < 8, REV8BITS (2 ^ t) = 2 ^ (7 - t) := by decide

theorem REV8BITS_zero : REV8BITS 0 = 0 := by decide

theorem bit_reverse_n_zero (w : Nat) : bit_reverse_n 0 w = 0 := by
  apply Nat.eq_of_testBit_eq
  intro t
  by_cases h : t < w <;> simp [bit_reverse_n_testBit, h]

theorem bit_reverse_n_two_pow_top {W : Nat} (hW : 1 ≤ W) :
    bit_reverse_n (2 ^ (W - 1)) W = 1 := by
  apply Nat.eq_of_testBit_eq
  intro t
  rw [bit_reverse_n_testBit]
  by_cases ht : t < W
  · rw [if_pos ht, Nat.testBit_two_pow]
    by_cases h0 : t = 0
    · subst h0
      rw [decide_eq_true (by omega : W - 1 = W - 1 - 0)]
      rfl
    · rw [decide_eq_false (by omega : ¬ (W - 1 = W - 1 - t)),
        testBit_eq_false_of_lt (Nat.one_lt_two_pow (by omega : t ≠ 0)) (le_refl t)]
  · rw [if_neg ht,
      testBit_eq_false_of_lt (Nat.one_lt_two_pow (by omega : t ≠ 0)) (le_refl t)]

/-- Splitting a register into its top-8-bit part and the rest. -/
theorem shiftRight_shiftLeft_xor_and (g s : Nat) :
    g = ((g >>> s) <<< s) ^^^ (g &&& (2 ^ s - 1)) := by
  apply Nat.eq_of_testBit_eq
  intro t
  rw [Nat.testBit_xor, Nat.testBit_shiftLeft, Nat.testBit_shiftRight, Nat.testBit_and,
    Nat.testBit_two_pow_sub_one]
  by_cases ht : s ≤ t
  · rw [decide_eq_true (by omega : t ≥ s), Bool.true_and,
      decide_eq_false (by omega : ¬ t < s), Bool.and_false, Bool.xor_false,
      show s + (t - s) = t by omega]
  · rw [decide_eq_false (by omega : ¬ t ≥ s), Bool.false_and,
      decide_eq_true (by omega : t < s), Bool.and_true, Bool.false_xor]

theorem shiftRight_lt_two_pow {g W : Nat} (hg : g < 2 ^ W) (h8 : 8 ≤ W) :
    g >>> (W - 8) < 2 ^ 8 := by
  rw [Nat.shiftRight_eq_div_pow]
  apply Nat.div_lt_of_lt_mul
  rw [← pow_add, show W - 8 + 8 = W by omega]
  exact hg

theorem and_low_lt (g s : Nat) : g &&& (2 ^ s - 1) < 2 ^ s := by
  rw [Nat.and_pow_two_sub_one_eq_mod]
  exact Nat.mod_lt _ (Nat.two_pow_pos s)

theorem two_pow_shiftLeft (a s : Nat) : (2 ^ a) <<< s = 2 ^ (a + s) := by
  rw [Nat.shiftLeft_eq, ← pow_add]

theorem shift_rounds_masked_add (ms poly mask : Nat) :
    ∀ x y c, shift_rounds_masked ms poly mask (x + y) c
      = shift_rounds_masked ms poly mask y (shift_rounds_masked ms poly mask x c) := by
  intro x
  induction x with
  | zero => intro y c; rw [Nat.zero_add]; rfl
  | succ x ih =>
    intro y c
    rw [show x + 1 + y = (x + y) + 1 by omega]
    show shift_rounds_masked ms poly mask (x + y) (shift_round ms poly c &&& mask) = _
    rw [ih]
    rfl

theorem masked_succ_and_mask (ms poly mask : Nat) (n c : Nat) :
    shift_rounds_masked ms poly mask (n + 1) c &&& mask
      = shift_rounds_masked ms poly mask (n + 1) c := by
  rw [shift_rounds_masked_succ_outer, Nat.and_assoc, Nat.and_self]

theorem masked_succ_lt (W poly : Nat) (n c : Nat) :
    shift_rounds_masked (2 ^ (W - 1)) poly (2 ^ W - 1) (n + 1) c < 2 ^ W := by
  rw [shift_rounds_masked_succ_outer]
  calc shift_round (2 ^ (W - 1)) poly (shift_rounds_masked (2 ^ (W - 1)) poly
        (2 ^ W - 1) n c) &&& (2 ^ W - 1) ≤ 2 ^ W - 1 := Nat.and_le_right
    _ < 2 ^ W := by have := Nat.two_pow_pos W; omega

/-- Feeding one byte into the register: the low part of the register shifts
up untouched while the top 8 bits, combined with the byte, go through the
full 8 rounds. -/
theorem masked_eight_feed (W poly : Nat) (hW : 8 ≤ W) (g v : Nat) :
    shift_rounds_masked (2 ^ (W - 1)) poly (2 ^ W - 1) 8 (g ^^^ (v <<< (W - 8)))
      = ((g &&& (2 ^ (W - 8) - 1)) <<< 8)
        ^^^ shift_rounds_masked (2 ^ (W - 1)) poly (2 ^ W - 1) 8
            (((g >>> (W - 8)) ^^^ v) <<< (W - 8)) := by
  conv_lhs => rw [shiftRight_shiftLeft_xor_and g (W - 8)]
  rw [show (((g >>> (W - 8)) <<< (W - 8)) ^^^ (g &&& (2 ^ (W - 8) - 1))) ^^^ (v <<< (W - 8))
      = (g &&& (2 ^ (W - 8) - 1)) ^^^ (((g >>> (W - 8)) ^^^ v) <<< (W - 8)) by
    rw [xor_shiftLeft, Nat.xor_comm ((g >>> (W - 8)) <<< (W - 8)) (g &&& (2 ^ (W - 8) - 1)),
      Nat.xor_assoc]]
  rw [shift_rounds_masked_xor,
    shift_rounds_masked_small W poly 8 _ hW (and_low_lt g (W - 8))]

theorem shiftLeft8_and_mask {W : Nat} (h8 : 8 ≤ W) (g : Nat) :
    (g <<< 8) &&& (2 ^ W - 1) = (g &&& (2 ^ (W - 8) - 1)) <<< 8 := by
  apply Nat.eq_of_testBit_eq
  intro t
  rw [Nat.testBit_and, Nat.testBit_shiftLeft, Nat.testBit_shiftLeft, Nat.testBit_and,
    Nat.testBit_two_pow_sub_one, Nat.testBit_two_pow_sub_one]
  by_cases h1 : 8 ≤ t
  · rw [decide_eq_true (show t ≥ 8 from h1), Bool.true_and, Bool.true_and]
    by_cases h2 : t < W
    · rw [decide_eq_true h2, decide_eq_true (show t - 8 < W - 8 by omega)]
    · rw [decide_eq_false h2, decide_eq_false (show ¬ t - 8 < W - 8 by omega)]
  · rw [decide_eq_false (show ¬ t ≥ 8 from h1)]
    simp

/-- The generic engine's per-byte step is the masked 8-round iteration. -/
theorem generic_byte_step_eq_masked (rin : Bool) (W poly : Nat) (hW : 1 ≤ W) (c b : Nat) :
    generic_byte_step rin (W - 8) (2 ^ (W - 1)) poly (2 ^ W - 1) c b
      = shift_rounds_masked (2 ^ (W - 1)) poly (2 ^ W - 1) 8
          (c ^^^ ((if rin then REV8BITS b else b) <<< (W - 8))) :=
  (shift_rounds_masked_succ_eq W poly hW 7 _).symm

/-- Witness for C5's amended statement on a concrete engine, buffer and
sub-range. -/
theorem c5_amended_witness :
    1 < ([0xAB, 0xCD, 0x01] : List Nat).length
    ∧ 1 ≤ 2 ∧ 2 ≤ ([0xAB, 0xCD, 0x01] : List Nat).length
    ∧ (∀ x ∈ ([0xAB, 0xCD, 0x01] : List Nat), x < 256)
    ∧ (create_windowed_todo ⟨0x07, 8, 0x55, true, false, 0x13⟩).calculate
        [0xAB, 0xCD, 0x01] ((8 * 1 : Nat) : Int) (some ((8 * (2 - 1) : Nat) : Int)) none
      = some ((create_generic 0x07 8 0x55 true false 0x13).calculate
          ((([0xAB, 0xCD, 0x01] : List Nat).drop 1).take (2 - 1)) none) :=
  ⟨by decide, by decide, by decide, by decide,
    c5_amended_byte_aligned_window ⟨0x07, 8, 0x55, true, false, 0x13⟩ [0xAB, 0xCD, 0x01]
      1 2 none (by decide) (by decide) (by decide) (by decide)⟩

theorem masked_eight_and_mask (ms poly mask c : Nat) :
    shift_rounds_masked ms poly mask 8 c &&& mask = shift_rounds_masked ms poly mask 8 c :=
  masked_succ_and_mask ms poly mask 7 c

theorem masked_eight_lt (W poly c : Nat) :
    shift_rounds_masked (2 ^ (W - 1)) poly (2 ^ W - 1) 8 c < 2 ^ W :=
  masked_succ_lt W poly 7 c

/-- The generic engine's per-byte step with `ref_in = False` is the masked
8-round iteration on the byte xored into the top of the register. -/
theorem generic_byte_step_false_masked (W poly : Nat) (hW : 1 ≤ W) (c b : Nat) :
    generic_byte_step false (W - 8) (2 ^ (W - 1)) poly (2 ^ W - 1) c b
      = shift_rounds_masked (2 ^ (W - 1)) poly (2 ^ W - 1) 8 (c ^^^ (b <<< (W - 8))) :=
  (shift_rounds_masked_succ_eq W poly hW 7 _).symm

/-- The generic engine's per-byte step with `ref_in = True`: as above with the
byte bit-reversed first. -/
theorem generic_byte_step_true_masked (W poly : Nat) (hW : 1 ≤ W) (c b : Nat) :
    generic_byte_step true (W - 8) (2 ^ (W - 1)) poly (2 ^ W - 1) c b
      = shift_rounds_masked (2 ^ (W - 1)) poly (2 ^ W - 1) 8
          (c ^^^ (REV8BITS b <<< (W - 8))) :=
  (shift_rounds_masked_succ_eq W poly hW 7 _).symm

/-- Closed form of the msb-first table: entry `n` is the masked 8-round
iteration started from `n` placed in the top byte of the register. -/
theorem create_msb_table_getD_F (poly W : Nat) (h8 : 8 ≤ W) (n : Nat) (hn : n < 256) :
    (create_msb_table poly W).getD n 0
      = shift_rounds_masked (2 ^ (W - 1)) poly (2 ^ W - 1) 8 (n <<< (W - 8)) := by
  rw [create_msb_table_getD poly W n hn]
  refine bitXorSum_eq_fun _
    (fun m => shift_rounds_masked (2 ^ (W - 1)) poly (2 ^ W - 1) 8 (m <<< (W - 8))) 8
    ?_ ?_ ?_ n (by norm_num; omega)
  · show shift_rounds_masked (2 ^ (W - 1)) poly (2 ^ W - 1) 8 (0 <<< (W - 8)) = 0
    rw [Nat.zero_shiftLeft]
    exact shift_rounds_masked_zero (W - 1) poly (2 ^ W - 1) 8
  · intro a b _ _
    show shift_rounds_masked (2 ^ (W - 1)) poly (2 ^ W - 1) 8 ((a ^^^ b) <<< (W - 8)) = _
    rw [xor_shiftLeft, shift_rounds_masked_xor]
  · intro k hk
    show shift_rounds_masked (2 ^ (W - 1)) poly (2 ^ W - 1) 8 ((2 ^ k) <<< (W - 8)) = _
    have hsplit := shift_rounds_masked_add (2 ^ (W - 1)) poly (2 ^ W - 1) (7 - k) (k + 1)
      ((2 ^ k) <<< (W - 8))
    rw [show 7 - k + (k + 1) = 8 by omega] at hsplit
    rw [hsplit, two_pow_shiftLeft,
      shift_rounds_masked_small W poly (7 - k) (2 ^ (k + (W - 8))) (by omega)
        (Nat.pow_lt_pow_right (by norm_num) (by omega)),
      two_pow_shiftLeft, show k + (W - 8) + (7 - k) = W - 1 by omega]

/-- One byte through the msb-first table engine equals one byte through the
generic engine, for a register below `2 ^ W` and `W ≥ 8`. -/
theorem msbf_step_sim (poly W : Nat) (h8 : 8 ≤ W) (g b : Nat)
    (hg : g < 2 ^ W) (hb : b < 256) :
    msbf_byte_step (create_msb_table poly W) (2 ^ W - 1) ((W : Int) - 8) g b
      = some (generic_byte_step false (W - 8) (2 ^ (W - 1)) poly (2 ^ W - 1) g b) := by
  have h256 : (2:Nat) ^ 8 = 256 := by norm_num
  have htop : g >>> (W - 8) < 2 ^ 8 := shiftRight_lt_two_pow hg h8
  have hidx : (g >>> (W - 8)) ^^^ b < 256 := by
    have := Nat.xor_lt_two_pow (x := g >>> (W - 8)) (y := b) (n := 8) (by omega) (by omega)
    omega
  have hsh : ((W : Int) - 8).toNat = W - 8 := by omega
  have h1 : pyShiftRight g ((W : Int) - 8) = some (g >>> (W - 8)) := by
    rw [pyShiftRight, if_neg (by omega : ¬ ((W : Int) - 8 < 0)), hsh]
  have h2 : pyTableGet (create_msb_table poly W) ((g >>> (W - 8)) ^^^ b)
      = some ((create_msb_table poly W).getD ((g >>> (W - 8)) ^^^ b) 0) := by
    rw [pyTableGet, if_pos (by rw [create_msb_table_length]; omega)]
  simp only [msbf_byte_step, h1, h2, Option.bind_eq_bind, Option.some_bind]
  rw [create_msb_table_getD_F poly W h8 _ hidx,
    generic_byte_step_false_masked W poly (by omega) g b,
    masked_eight_feed W poly h8 g b, Nat.and_xor_distrib_right, shiftLeft8_and_mask h8 g,
    masked_eight_and_mask]

/-- The whole msb-first table fold equals the generic fold, for byte data and
a seed below `2 ^ W`. -/
theorem msbf_fold_sim (poly W : Nat) (h8 : 8 ≤ W) :
    ∀ (data : List Nat) (g : Nat), g < 2 ^ W → (∀ b ∈ data, b < 256) →
      data.foldlM (fun remainder value =>
          msbf_byte_step (create_msb_table poly W) (2 ^ W - 1) ((W : Int) - 8)
            remainder value) g
        = some (data.foldl (fun crc byte =>
            generic_byte_step false (W - 8) (2 ^ (W - 1)) poly (2 ^ W - 1) crc byte) g) := by
  intro data
  induction data with
  | nil => intro g _ _; rfl
  | cons b data ih =>
    intro g hg hdata
    have hg' : generic_byte_step false (W - 8) (2 ^ (W - 1)) poly (2 ^ W - 1) g b < 2 ^ W := by
      rw [generic_byte_step_false_masked W poly (by omega)]
      exact masked_eight_lt W poly _
    rw [List.foldlM_cons, msbf_step_sim poly W h8 g b hg (hdata b (List.mem_cons_self b data))]
    simp only [Option.bind_eq_bind, Option.some_bind]
    rw [List.foldl_cons]
    exact ih _ hg' (fun x hx => hdata x (List.mem_cons_of_mem b hx))

/-! ## lsb-first rounds: linearity and the closed form of the table -/

theorem xor_shiftRight (a b n : Nat) : (a ^^^ b) >>> n = a >>> n ^^^ b >>> n := by
  apply Nat.eq_of_testBit_eq
  intro t
  simp only [Nat.testBit_shiftRight, Nat.testBit_xor]

theorem and_one_ne_zero_iff (c : Nat) : c &&& 1 ≠ 0 ↔ c.testBit 0 = true := by
  have h := and_two_pow_ne_zero_iff c 0
  rw [pow_zero] at h
  exact h

theorem lsb_shift_round_xor (poly a b : Nat) :
    lsb_shift_round poly (a ^^^ b) = lsb_shift_round poly a ^^^ lsb_shift_round poly b := by
  simp only [lsb_shift_round, ne_eq, ← Bool.not_eq_true, and_one_ne_zero_iff, Nat.testBit_xor]
  cases ha : a.testBit 0 <;> cases hb : b.testBit 0 <;>
    simp [xor_shiftRight, Nat.xor_assoc, Nat.xor_comm, xor_left_comm, xor_xor_cancel]

theorem lsb_shift_round_zero (poly : Nat) : lsb_shift_round poly 0 = 0 := by
  simp [lsb_shift_round]

theorem lsb_shift_rounds_xor (poly : Nat) : ∀ n a b,
    lsb_shift_rounds poly n (a ^^^ b)
      = lsb_shift_rounds poly n a ^^^ lsb_shift_rounds poly n b := by
  intro n
  induction n with
  | zero => intro a b; rfl
  | succ n ih =>
    intro a b
    show lsb_shift_rounds poly n (lsb_shift_round poly (a ^^^ b)) = _
    rw [lsb_shift_round_xor, ih]
    rfl

theorem lsb_shift_rounds_zero (poly : Nat) : ∀ n, lsb_shift_rounds poly n 0 = 0 := by
  intro n
  induction n with
  | zero => rfl
  | succ n ih =>
    show lsb_shift_rounds poly n (lsb_shift_round poly 0) = 0
    rw [lsb_shift_round_zero, ih]

theorem lsb_shift_rounds_add (poly : Nat) : ∀ x y c,
    lsb_shift_rounds poly (x + y) c
      = lsb_shift_rounds poly y (lsb_shift_rounds poly x c) := by
  intro x
  induction x with
  | zero => intro y c; rw [Nat.zero_add]; rfl
  | succ x ih =>
    intro y c
    rw [show x + 1 + y = (x + y) + 1 by omega]
    show lsb_shift_rounds poly (x + y) (lsb_shift_round poly c) = _
    rw [ih]
    rfl

/-- A value with `k` zeroed low bits just shifts down through `k` lsb-first
rounds. -/
theorem lsb_shift_rounds_shiftLeft (poly : Nat) : ∀ k y,
    lsb_shift_rounds poly k (y <<< k) = y := by
  intro k
  induction k with
  | zero => intro y; rfl
  | succ k ih =>
    intro y
    have he : y <<< (k + 1) = (y <<< k) * 2 := by
      rw [Nat.shiftLeft_eq, Nat.shiftLeft_eq, pow_succ]
      ring
    have h1 : (y <<< (k + 1)) &&& 1 = 0 := by
      rw [Nat.and_one_is_mod, he, Nat.mul_mod_left]
    have h2 : (y <<< (k + 1)) >>> 1 = y <<< k := by
      rw [Nat.shiftRight_eq_div_pow, pow_one, he, Nat.mul_div_cancel _ (by omega : 0 < 2)]
    show lsb_shift_rounds poly k (lsb_shift_round poly (y <<< (k + 1))) = y
    rw [lsb_shift_round, if_neg (fun h => h h1), h2, ih]

theorem lsb_shift_rounds_two_pow (poly k : Nat) :
    lsb_shift_rounds poly k (2 ^ k) = 1 := by
  have h : (2:Nat) ^ k = 1 <<< k := by rw [Nat.one_shiftLeft]
  rw [h, lsb_shift_rounds_shiftLeft]

/-- Closed form of the lsb-first table: entry `n` is just 8 lsb-first rounds
of the reflected polynomial applied to `n`. -/
theorem create_lsb_table_getD_F (poly width n : Nat) (hn : n < 256) :
    (create_lsb_table poly width).getD n 0
      = lsb_shift_rounds (bit_reverse_n poly width) 8 n := by
  rw [create_lsb_table_getD poly width n hn]
  refine bitXorSum_eq_fun _ (fun m => lsb_shift_rounds (bit_reverse_n poly width) 8 m) 8
    (lsb_shift_rounds_zero _ 8) (fun a b _ _ => lsb_shift_rounds_xor _ 8 a b) ?_ n
    (by norm_num; omega)
  intro k hk
  show lsb_shift_rounds (bit_reverse_n poly width) 8 (2 ^ k) = _
  have hsplit := lsb_shift_rounds_add (bit_reverse_n poly width) k (8 - k) (2 ^ k)
  rw [show k + (8 - k) = 8 by omega] at hsplit
  rw [hsplit, lsb_shift_rounds_two_pow]

/-! ## Bit reversal conjugates msb-first rounds into lsb-first rounds -/

/-- One masked msb-first round, seen through a `W`-bit reversal, is one
lsb-first round with the reversed polynomial. -/
theorem bit_reverse_masked_round (W p g : Nat) (hW : 1 ≤ W) :
    bit_reverse_n (shift_round (2 ^ (W - 1)) p g &&& (2 ^ W - 1)) W
      = lsb_shift_round (bit_reverse_n p W) (bit_reverse_n g W) := by
  have hcond : (bit_reverse_n g W &&& 1 ≠ 0) ↔ (g &&& 2 ^ (W - 1) ≠ 0) := by
    rw [and_one_ne_zero_iff, and_two_pow_ne_zero_iff, bit_reverse_n_testBit,
      if_pos (by omega : 0 < W), Nat.sub_zero]
  rw [shift_round, lsb_shift_round]
  by_cases hc : g &&& 2 ^ (W - 1) ≠ 0
  · rw [if_pos hc, if_pos (hcond.mpr hc)]
    apply Nat.eq_of_testBit_eq
    intro t
    rw [bit_reverse_n_testBit, Nat.testBit_xor, Nat.testBit_shiftRight, bit_reverse_n_testBit,
      bit_reverse_n_testBit]
    by_cases ht : t < W
    · rw [if_pos ht, if_pos ht, Nat.testBit_and, Nat.testBit_xor, Nat.testBit_shiftLeft,
        Nat.testBit_two_pow_sub_one, decide_eq_true (by omega : W - 1 - t < W), Bool.and_true]
      by_cases ht2 : 1 + t < W
      · rw [if_pos ht2, decide_eq_true (by omega : W - 1 - t ≥ 1), Bool.true_and,
          show W - 1 - t - 1 = W - 1 - (1 + t) by omega]
      · rw [if_neg ht2, decide_eq_false (by omega : ¬ (W - 1 - t ≥ 1)), Bool.false_and]
    · rw [if_neg ht, if_neg ht, if_neg (by omega : ¬ 1 + t < W), Bool.false_xor]
  · rw [if_neg hc, if_neg (fun h => hc (hcond.mp h))]
    apply Nat.eq_of_testBit_eq
    intro t
    rw [bit_reverse_n_testBit, Nat.testBit_shiftRight, bit_reverse_n_testBit]
    by_cases ht : t < W
    · rw [if_pos ht, Nat.testBit_and, Nat.testBit_shiftLeft, Nat.testBit_two_pow_sub_one,
        decide_eq_true (by omega : W - 1 - t < W), Bool.and_true]
      by_cases ht2 : 1 + t < W
      · rw [if_pos ht2, decide_eq_true (by omega : W - 1 - t ≥ 1), Bool.true_and,
          show W - 1 - t - 1 = W - 1 - (1 + t) by omega]
      · rw [if_neg ht2, decide_eq_false (by omega : ¬ (W - 1 - t ≥ 1)), Bool.false_and]
    · rw [if_neg ht, if_neg (by omega : ¬ 1 + t < W)]

/-- Iterated: `n` masked msb-first rounds reverse to `n` lsb-first rounds. -/
theorem bit_reverse_masked_rounds (W p : Nat) (hW : 1 ≤ W) : ∀ n g,
    bit_reverse_n (shift_rounds_masked (2 ^ (W - 1)) p (2 ^ W - 1) n g) W
      = lsb_shift_rounds (bit_reverse_n p W) n (bit_reverse_n g W) := by
  intro n
  induction n with
  | zero => intro g; rfl
  | succ n ih =>
    intro g
    show bit_reverse_n (shift_rounds_masked (2 ^ (W - 1)) p (2 ^ W - 1) n
      (shift_round (2 ^ (W - 1)) p g &&& (2 ^ W - 1))) W = _
    rw [ih, bit_reverse_masked_round W p g hW]
    rfl

/-- Reversal at `width + L` bits absorbs a left shift by `L`. -/
theorem bit_reverse_shiftLeft (x width L : Nat) :
    bit_reverse_n (x <<< L) (width + L) = bit_reverse_n x width := by
  apply Nat.eq_of_testBit_eq
  intro t
  rw [bit_reverse_n_testBit, bit_reverse_n_testBit]
  by_cases ht : t < width
  · rw [if_pos (by omega : t < width + L), if_pos ht, Nat.testBit_shiftLeft,
      decide_eq_true (by omega : width + L - 1 - t ≥ L), Bool.true_and,
      show width + L - 1 - t - L = width - 1 - t by omega]
  · by_cases htW : t < width + L
    · rw [if_pos htW, if_neg ht, Nat.testBit_shiftLeft,
        decide_eq_false (by omega : ¬ (width + L - 1 - t ≥ L)), Bool.false_and]
    · rw [if_neg htW, if_neg ht]

/-- The reflected byte, injected at the top of the `W`-bit register, reverses
back to the plain byte. -/
theorem bit_reverse_rev8_shift {W : Nat} (h8 : 8 ≤ W) {b : Nat} (hb : b < 256) :
    bit_reverse_n (REV8BITS b <<< (W - 8)) W = b := by
  have hb8 : b < 2 ^ 8 := by norm_num; omega
  apply Nat.eq_of_testBit_eq
  intro t
  rw [bit_reverse_n_testBit]
  by_cases ht : t < 8
  · rw [if_pos (by omega : t < W), Nat.testBit_shiftLeft,
      decide_eq_true (by omega : W - 1 - t ≥ W - 8), Bool.true_and,
      show W - 1 - t - (W - 8) = 7 - t by omega, REV8BITS_testBit hb (by omega : 7 - t < 8),
      show 7 - (7 - t) = t by omega]
  · by_cases htW : t < W
    · rw [if_pos htW, Nat.testBit_shiftLeft,
        decide_eq_false (by omega : ¬ (W - 1 - t ≥ W - 8)), Bool.false_and,
        (testBit_eq_false_of_lt hb8 (by omega : 8 ≤ t)).symm]
    · rw [if_neg htW, (testBit_eq_false_of_lt hb8 (by omega : 8 ≤ t)).symm]

/-- If the polynomial's low `L` bits are clear, `n ≥ L` masked rounds clear
the register's low `L` bits (they are fed only by left shifts). -/
theorem masked_rounds_low_bits (ms poly mask L : Nat)
    (hpoly : ∀ s, s < L → poly.testBit s = false) :
    ∀ n c s, s < L → s < n → (shift_rounds_masked ms poly mask n c).testBit s = false := by
  intro n
  induction n with
  | zero => intro c s _ h; omega
  | succ n ih =>
    intro c s hsL hsn
    rw [shift_rounds_masked_succ_outer, Nat.testBit_and]
    have hr : (shift_round ms poly (shift_rounds_masked ms poly mask n c)).testBit s
        = false := by
      rw [shift_round]
      by_cases hcnd : shift_rounds_masked ms poly mask n c &&& ms ≠ 0
      · rw [if_pos hcnd, Nat.testBit_xor, hpoly s hsL, Bool.xor_false, Nat.testBit_shiftLeft]
        by_cases hs : s = 0
        · subst hs
          rfl
        · rw [decide_eq_true (by omega : s ≥ 1), Bool.true_and,
            ih c (s - 1) (by omega) (by omega)]
      · rw [if_neg hcnd, Nat.testBit_shiftLeft]
        by_cases hs : s = 0
        · subst hs
          rfl
        · rw [decide_eq_true (by omega : s ≥ 1), Bool.true_and,
            ih c (s - 1) (by omega) (by omega)]
    rw [hr, Bool.false_and]

/-- The reversal of the masked 8-round state of the widened register fits in
`width` bits: the widened register keeps its low `L` pad bits clear. -/
theorem rev_masked_lt (width L : Nat) (hL8 : L ≤ 8) (poly c : Nat) :
    bit_reverse_n (shift_rounds_masked (2 ^ (width + L - 1)) (poly <<< L)
        (2 ^ (width + L) - 1) 8 c) (width + L)
      < 2 ^ width := by
  apply Nat.lt_pow_two_of_testBit
  intro t ht
  rw [bit_reverse_n_testBit]
  by_cases htW : t < width + L
  · rw [if_pos htW]
    exact masked_rounds_low_bits _ _ _ L
      (fun s hs => by
        rw [Nat.testBit_shiftLeft, decide_eq_false (by omega : ¬ s ≥ L), Bool.false_and])
      8 c (width + L - 1 - t) (by omega) (by omega)
  · rw [if_neg htW]

/-- For a register with clear low `L` bits, dropping the pad before reversing
at `width` bits equals reversing the whole `width + L`-bit register. -/
theorem bit_reverse_shiftRight (G width L : Nat)
    (hlow : ∀ s, s < L → G.testBit s = false) :
    bit_reverse_n (G >>> L) width = bit_reverse_n G (width + L) := by
  apply Nat.eq_of_testBit_eq
  intro t
  rw [bit_reverse_n_testBit, bit_reverse_n_testBit]
  by_cases ht : t < width
  · rw [if_pos ht, if_pos (by omega : t < width + L), Nat.testBit_shiftRight,
      show L + (width - 1 - t) = width + L - 1 - t by omega]
  · by_cases htW : t < width + L
    · rw [if_neg ht, if_pos htW, hlow (width + L - 1 - t) (by omega)]
    · rw [if_neg ht, if_neg htW]

/-- One byte through the lsb-first table engine equals the reversal of one
byte through the generic engine on the `width + L`-bit widened register. -/
theorem lsbf_step_sim (poly width L : Nat) (h8W : 8 ≤ width + L) (hL8 : L ≤ 8)
    (g b : Nat) (hb : b < 256) :
    lsbf_byte_step (create_lsb_table poly width) (2 ^ width - 1)
        (bit_reverse_n g (width + L)) b
      = bit_reverse_n
          (generic_byte_step true (width + L - 8) (2 ^ (width + L - 1)) (poly <<< L)
            (2 ^ (width + L) - 1) g b) (width + L) := by
  have hff : (0xFF : Nat) = 2 ^ 8 - 1 := by norm_num
  have h256 : (2:Nat) ^ 8 = 256 := by norm_num
  have hlow : bit_reverse_n g (width + L) &&& 0xFF < 256 := by
    rw [hff]
    have := and_low_lt (bit_reverse_n g (width + L)) 8
    omega
  have hidx : (bit_reverse_n g (width + L) &&& 0xFF) ^^^ b < 256 := by
    have := Nat.xor_lt_two_pow (x := bit_reverse_n g (width + L) &&& 0xFF) (y := b) (n := 8)
      (by omega) (by omega)
    omega
  have hgen : generic_byte_step true (width + L - 8) (2 ^ (width + L - 1)) (poly <<< L)
        (2 ^ (width + L) - 1) g b
      = shift_rounds_masked (2 ^ (width + L - 1)) (poly <<< L) (2 ^ (width + L) - 1) 8
          (g ^^^ (REV8BITS b <<< (width + L - 8))) :=
    generic_byte_step_true_masked (width + L) (poly <<< L) (by omega) g b
  have hcomm : bit_reverse_n (shift_rounds_masked (2 ^ (width + L - 1)) (poly <<< L)
        (2 ^ (width + L) - 1) 8 (g ^^^ (REV8BITS b <<< (width + L - 8)))) (width + L)
      = lsb_shift_rounds (bit_reverse_n poly width) 8
          (bit_reverse_n g (width + L) ^^^ b) := by
    rw [bit_reverse_masked_rounds (width + L) (poly <<< L) (by omega),
      bit_reverse_shiftLeft poly width L, bit_reverse_n_xor,
      bit_reverse_rev8_shift h8W hb]
  have hlt : lsb_shift_rounds (bit_reverse_n poly width) 8
      (bit_reverse_n g (width + L) ^^^ b) < 2 ^ width := by
    rw [← hcomm]
    exact rev_masked_lt width L hL8 poly _
  simp only [lsbf_byte_step]
  rw [create_lsb_table_getD_F poly width _ hidx,
    lsb_shift_rounds_xor (bit_reverse_n poly width) 8
      (bit_reverse_n g (width + L) &&& 0xFF) b,
    show bit_reverse_n g (width + L) >>> 8
        = lsb_shift_rounds (bit_reverse_n poly width) 8
            ((bit_reverse_n g (width + L) >>> 8) <<< 8) from
      (lsb_shift_rounds_shiftLeft (bit_reverse_n poly width) 8 _).symm,
    ← lsb_shift_rounds_xor, ← lsb_shift_rounds_xor, ← Nat.xor_assoc, hff,
    ← shiftRight_shiftLeft_xor_and (bit_reverse_n g (width + L)) 8,
    hgen, hcomm, Nat.and_pow_two_sub_one_eq_mod, Nat.mod_eq_of_lt hlt]

/-- The whole lsb-first table fold is the reversal of the generic fold on the
widened register. -/
theorem lsbf_fold_sim (poly width L : Nat) (h8W : 8 ≤ width + L) (hL8 : L ≤ 8) :
    ∀ (data : List Nat) (g : Nat), (∀ b ∈ data, b < 256) →
      data.foldl (fun crc byte =>
          lsbf_byte_step (create_lsb_table poly width) (2 ^ width - 1) crc byte)
        (bit_reverse_n g (width + L))
        = bit_reverse_n
            (data.foldl (fun crc byte => generic_byte_step true (width + L - 8)
                (2 ^ (width + L - 1)) (poly <<< L) (2 ^ (width + L) - 1) crc byte) g)
            (width + L) := by
  intro data
  induction data with
  | nil => intro g _; rfl
  | cons b data ih =>
    intro g hdata
    rw [List.foldl_cons, List.foldl_cons,
      lsbf_step_sim poly width L h8W hL8 g b (hdata b (List.mem_cons_self b data)),
      ih _ (fun x hx => hdata x (List.mem_cons_of_mem b hx))]

/-- The generic fold on the widened register keeps the low `L` pad bits
clear. -/
theorem generic_fold_low_bits (poly width L : Nat) (h8W : 8 ≤ width + L) (hL8 : L ≤ 8) :
    ∀ (data : List Nat) (g : Nat), (∀ s, s < L → g.testBit s = false) →
      ∀ s, s < L →
        (data.foldl (fun crc byte => generic_byte_step true (width + L - 8)
            (2 ^ (width + L - 1)) (poly <<< L) (2 ^ (width + L) - 1) crc byte) g).testBit s
          = false := by
  intro data
  induction data with
  | nil => intro g hg s hs; exact hg s hs
  | cons b data ih =>
    intro g hg s hs
    rw [List.foldl_cons]
    refine ih _ ?_ s hs
    intro u hu
    rw [generic_byte_step_true_masked (width + L) (poly <<< L) (by omega)]
    exact masked_rounds_low_bits _ _ _ L
      (fun v hv => by
        rw [Nat.testBit_shiftLeft, decide_eq_false (by omega : ¬ v ≥ L), Bool.false_and])
      8 _ u hu (by omega)

/-- `create` with both reflection flags set builds the lsb-first table engine
(`reverse_result = False`); its `calculate`, unfolded. -/
theorem create_true_engine (poly width seed xor_out : Nat) (data : List Nat) :
    (create poly width seed true true xor_out).calculate data
      = some ((data.foldl (fun crc byte => lsbf_byte_step (create_lsb_table poly width)
            ((1 <<< width) - 1) crc byte) (bit_reverse_n seed width)) ^^^ xor_out) := by
  rw [show create poly width seed true true xor_out
      = .lsbf (CrcLsbfTable.init (create_lsb_table poly width) width seed xor_out false)
    from rfl]
  rw [show ∀ e data, (TableEngine.lsbf e).calculate data = some (e.calculate data)
    from fun e data => rfl]
  rw [show ∀ table width seed xor_out data,
      (CrcLsbfTable.init table width seed xor_out false).calculate data
        = (data.foldl (fun crc byte => lsbf_byte_step table ((1 <<< width) - 1) crc byte)
            (bit_reverse_n seed width)) ^^^ xor_out
    from fun table width seed xor_out data => rfl]

/-- `create` with both reflection flags clear builds the msb-first table
engine (`reverse_result = False`); its `calculate`, unfolded. -/
theorem create_false_engine (poly width seed xor_out : Nat) (data : List Nat) :
    (create poly width seed false false xor_out).calculate data
      = (data.foldlM (fun remainder value => msbf_byte_step (create_msb_table poly width)
            ((1 <<< width) - 1) ((width : Int) - 8) remainder value) seed)
          >>= (fun remainder => some (remainder ^^^ xor_out)) := by
  rw [show create poly width seed false false xor_out
      = .msbf (CrcMsbfTable.init (create_msb_table poly width) width seed xor_out false)
    from rfl]
  rw [show ∀ table width seed xor_out data,
      (TableEngine.msbf (CrcMsbfTable.init table width seed xor_out false)).calculate data
        = (data.foldlM (fun remainder value => msbf_byte_step table ((1 <<< width) - 1)
            ((width : Int) - 8) remainder value) seed)
          >>= (fun remainder => some (remainder ^^^ xor_out))
    from fun table width seed xor_out data => rfl]

/-- The generic engine with both reflections, `width < 8`: register widened to
8 bits by `crc_lshift = 8 - width`. -/
theorem create_generic_tt_lt (poly width seed xor_out : Nat) (data : List Nat)
    (hw : width < 8) :
    (create_generic poly width seed true true xor_out).calculate data none
      = bit_reverse_n ((data.foldl (fun crc byte => generic_byte_step true 0
            (1 <<< (width + (8 - width) - 1)) (poly <<< (8 - width))
            ((1 <<< (width + (8 - width))) - 1) crc byte) (seed <<< (8 - width)))
          >>> (8 - width)) width ^^^ xor_out := by
  simp only [create_generic, CrcGeneric.init, CrcGeneric.calculate, Option.getD_none,
    if_pos hw]
  rw [if_true]

/-- The generic engine with both reflections, `width ≥ 8`. -/
theorem create_generic_tt_ge (poly width seed xor_out : Nat) (data : List Nat)
    (hw : ¬ width < 8) :
    (create_generic poly width seed true true xor_out).calculate data none
      = bit_reverse_n (data.foldl (fun crc byte => generic_byte_step true (width - 8)
            (1 <<< (width - 1)) poly ((1 <<< width) - 1) crc byte) seed) width
        ^^^ xor_out := by
  simp only [create_generic, CrcGeneric.init, CrcGeneric.calculate, Option.getD_none,
    if_neg hw, Nat.add_zero, Nat.shiftLeft_zero, Nat.shiftRight_zero]
  rw [if_true]

/-- The generic engine with no reflection, `width ≥ 8`. -/
theorem create_generic_ff_ge (poly width seed xor_out : Nat) (data : List Nat)
    (hw : ¬ width < 8) :
    (create_generic poly width seed false false xor_out).calculate data none
      = (data.foldl (fun crc byte => generic_byte_step false (width - 8)
            (1 <<< (width - 1)) poly ((1 <<< width) - 1) crc byte) seed) ^^^ xor_out := by
  simp only [create_generic, CrcGeneric.init, CrcGeneric.calculate, Option.getD_none,
    if_neg hw, Nat.add_zero, Nat.shiftLeft_zero, Nat.shiftRight_zero, Bool.false_eq_true,
    if_false]

/-- C3 (amended): for matched reflection flags (`ref_in = ref_out`), byte-valued
input, a seed fitting in `width` bits, and `width ≥ 8` whenever the flags are
clear, the table-driven engine returned by `create` returns (without raising)
exactly the CRC value computed by the generic bit-at-a-time engine of
`create_generic`. -/
theorem c3_amended_table_generic_equiv (poly width seed xor_out : Nat) (r : Bool)
    (data : List Nat) (hseed : seed < 2 ^ width) (hdata : ∀ b ∈ data, b < 256)
    (hmsbf : r = false → 8 ≤ width) :
    (create poly width seed r r xor_out).calculate data
      = some ((create_generic poly width seed r r xor_out).calculate data none) := by
  cases r with
  | false =>
    have h8 : 8 ≤ width := hmsbf rfl
    have hw : ¬ width < 8 := by omega
    rw [create_false_engine, create_generic_ff_ge poly width seed xor_out data hw]
    simp only [Nat.one_shiftLeft]
    rw [msbf_fold_sim poly width h8 data seed hseed hdata]
    simp only [Option.bind_eq_bind, Option.some_bind]
  | true =>
    by_cases hw : width < 8
    · rw [create_true_engine, create_generic_tt_lt poly width seed xor_out data hw]
      simp only [Nat.one_shiftLeft]
      have h8W : 8 ≤ width + (8 - width) := by omega
      have hfold := lsbf_fold_sim poly width (8 - width) h8W (by omega) data
        (seed <<< (8 - width)) hdata
      have hlowf := generic_fold_low_bits poly width (8 - width) h8W (by omega) data
        (seed <<< (8 - width))
        (fun s hs => by
          rw [Nat.testBit_shiftLeft, decide_eq_false (by omega : ¬ s ≥ 8 - width),
            Bool.false_and])
      rw [show width + (8 - width) - 8 = 0 by omega] at hfold hlowf
      rw [show bit_reverse_n seed width
            = bit_reverse_n (seed <<< (8 - width)) (width + (8 - width)) from
          (bit_reverse_shiftLeft seed width (8 - width)).symm,
        hfold, bit_reverse_shiftRight _ width (8 - width) hlowf]
    · rw [create_true_engine, create_generic_tt_ge poly width seed xor_out data hw]
      simp only [Nat.one_shiftLeft]
      have hfold := lsbf_fold_sim poly width 0 (by omega) (by omega) data seed hdata
      simp only [Nat.shiftLeft_zero, Nat.add_zero] at hfold
      rw [hfold]

/-- Witness for C3's amended statement: width 4 with both reflections set, a
4-bit seed and two data bytes. -/
theorem c3_amended_witness :
    ((5 : Nat) < 2 ^ 4 ∧ (∀ b ∈ [0x31, 0x07], b < 256))
    ∧ (create 3 4 5 true true 6).calculate [0x31, 0x07]
        = some ((create_generic 3 4 5 true true 6).calculate [0x31, 0x07] none) :=
  ⟨⟨by decide, by decide⟩,
    c3_amended_table_generic_equiv 3 4 5 6 true [0x31, 0x07] (by decide) (by decide)
      (by decide)⟩

/-! ## No constructor validates: the generic engine silently truncates -/

/-- Each per-byte step of the generic engine ends in `&&& crc_mask`. -/
theorem generic_byte_step_le (rin : Bool) (ms msbit poly mask c b : Nat) :
    generic_byte_step rin ms msbit poly mask c b ≤ mask :=
  Nat.and_le_right

/-- A fold over a non-empty list whose step always lands below a bound ends
below that bound. -/
theorem foldl_le_of_step_le (m : Nat) (f : Nat → Nat → Nat)
    (hf : ∀ c b, f c b ≤ m) :
    ∀ (data : List Nat) (g : Nat), data ≠ [] → data.foldl f g ≤ m := by
  intro data
  induction data with
  | nil => intro g h; exact absurd rfl h
  | cons b t ih =>
    intro g _
    rw [List.foldl_cons]
    cases t with
    | nil => exact hf g b
    | cons c u => exact ih (f g b) (List.cons_ne_nil c u)

theorem shiftRight_lt_of_lt (g w L : Nat) (hg : g < 2 ^ (w + L)) : g >>> L < 2 ^ w := by
  rw [Nat.shiftRight_eq_div_pow]
  apply Nat.div_lt_of_lt_mul
  rw [← pow_add, Nat.add_comm L w]
  exact hg

/-- `_CrcGeneric.calculate(data, seed=None)` on the engine built by
`create_generic`, with the `__init__` field values written out. -/
theorem create_generic_calculate_shape (poly width seed : Nat) (rin rout : Bool)
    (xor_out : Nat) (data : List Nat) :
    (create_generic poly width seed rin rout xor_out).calculate data none
      = (if rout then
           bit_reverse_n
             ((data.foldl (fun crc byte => generic_byte_step rin
                 (if width < 8 then 0 else width - 8)
                 (1 <<< (width + (if width < 8 then 8 - width else 0) - 1))
                 (poly <<< (if width < 8 then 8 - width else 0))
                 ((1 <<< (width + (if width < 8 then 8 - width else 0))) - 1) crc byte)
               (seed <<< (if width < 8 then 8 - width else 0)))
               >>> (if width < 8 then 8 - width else 0))
             width
         else
           (data.foldl (fun crc byte => generic_byte_step rin
               (if width < 8 then 0 else width - 8)
               (1 <<< (width + (if width < 8 then 8 - width else 0) - 1))
               (poly <<< (if width < 8 then 8 - width else 0))
               ((1 <<< (width + (if width < 8 then 8 - width else 0))) - 1) crc byte)
             (seed <<< (if width < 8 then 8 - width else 0)))
             >>> (if width < 8 then 8 - width else 0)) ^^^ xor_out := rfl

/-- The generic engine's output on a non-empty input fits in `width` bits
(for an in-range xor_out): the final mask, shift and reversal all land below
`2 ^ width`, whatever the seed and polynomial. -/
theorem generic_result_lt (rin rout : Bool) (width L msb poly seed xo : Nat)
    (hxo : xo < 2 ^ width) (data : List Nat) (hne : data ≠ []) :
    (if rout then
        bit_reverse_n ((data.foldl (fun crc byte => generic_byte_step rin msb
            (1 <<< (width + L - 1)) poly ((1 <<< (width + L)) - 1) crc byte)
          (seed <<< L)) >>> L) width
      else
        (data.foldl (fun crc byte => generic_byte_step rin msb (1 <<< (width + L - 1))
            poly ((1 <<< (width + L)) - 1) crc byte) (seed <<< L)) >>> L) ^^^ xo
      < 2 ^ width := by
  have hF : data.foldl (fun crc byte => generic_byte_step rin msb (1 <<< (width + L - 1))
        poly ((1 <<< (width + L)) - 1) crc byte) (seed <<< L)
      ≤ (1 <<< (width + L)) - 1 :=
    foldl_le_of_step_le _ _ (fun c b => generic_byte_step_le rin msb _ poly _ c b)
      data (seed <<< L) hne
  have hFlt : data.foldl (fun crc byte => generic_byte_step rin msb (1 <<< (width + L - 1))
        poly ((1 <<< (width + L)) - 1) crc byte) (seed <<< L)
      < 2 ^ (width + L) := by
    have h1 : (1 : Nat) <<< (width + L) = 2 ^ (width + L) := Nat.one_shiftLeft _
    have h2 := Nat.two_pow_pos (width + L)
    omega
  have hshift := shiftRight_lt_of_lt _ width L hFlt
  have hcrc : (if rout then
        bit_reverse_n ((data.foldl (fun crc byte => generic_byte_step rin msb
            (1 <<< (width + L - 1)) poly ((1 <<< (width + L)) - 1) crc byte)
          (seed <<< L)) >>> L) width
      else
        (data.foldl (fun crc byte => generic_byte_step rin msb (1 <<< (width + L - 1))
            poly ((1 <<< (width + L)) - 1) crc byte) (seed <<< L)) >>> L) < 2 ^ width := by
    cases rout with
    | true => simpa using bit_reverse_n_lt _ width
    | false => simpa using hshift
  exact Nat.xor_lt_two_pow hcrc hxo

/-- C9 amended: no constructor validates its parameters against `width`:
none rejects a polynomial, seed or xor_out wider than `width` bits, and no
validation check rejects width 0.  `create` with `ref_in` set accepts every
width (including 0) and every polynomial, seed and xor_out, and the engine it
returns produces a value on every input; `create_generic` accepts every
parameter set — oversized seeds and polynomials included — and on every
non-empty input returns a silently truncated result fitting in `width` bits
(for an in-range xor_out), e.g. 2 for seed 16 at width 4 on `b"\xff"`; the
windowed engine built from a width-0 parameter set constructs and returns its
xor_out.  (The only construction-time failure in calc.py is incidental, not a
validation: `create` with `ref_in` clear and width 0 hits the negative shift
`1 << (width - 1)` inside `create_msb_table`.) -/
theorem c9_amended_no_validation :
    (∀ poly width seed xor_out (ref_out : Bool) (data : List Nat),
      ((create poly width seed true ref_out xor_out).calculate data).isSome = true)
    ∧ (∀ poly width seed xor_out (ref_in ref_out : Bool) (data : List Nat),
        xor_out < 2 ^ width → data ≠ [] →
        (create_generic poly width seed ref_in ref_out xor_out).calculate data none
          < 2 ^ width)
    ∧ ((create_windowed_todo ⟨1, 0, 3, false, false, 6⟩).calculate [0] 0 none none
        = some 6)
    ∧ ((create_generic 3 4 16 true true 0).calculate [255] none = 2) :=
  ⟨fun poly width seed xor_out ref_out data => by
      simp [create, TableEngine.calculate],
    fun poly width seed xor_out ref_in ref_out data hxo hne => by
      rw [create_generic_calculate_shape]
      by_cases hw : width < 8
      · simp only [if_pos hw]
        exact generic_result_lt ref_in ref_out width (8 - width) 0
          (poly <<< (8 - width)) seed xor_out hxo data hne
      · simp only [if_neg hw]
        exact generic_result_lt ref_in ref_out width 0 (width - 8) poly seed xor_out
          hxo data hne,
    by decide, by decide⟩

end Crcengine
